import Mathlib

set_option maxHeartbeats 1000000
set_option maxRecDepth 100000

/-!
Verification of the patch extraction and reconciliation engine of the
`auto_patch` VS Code extension.  Strings are modelled as `List Char`
(`Str`); each definition below is a direct translation of the
corresponding TypeScript function (file and line references are given at
each definition).
-/

/-- Strings are modelled as lists of characters. -/
abbrev Str : Type := List Char

/-- The characters matched by the JavaScript regex class `\s` (and removed by
`String.prototype.trim`): ASCII whitespace, NBSP, the Unicode space
separators, the line separators and the BOM. -/
def jsWsChars : Str :=
  [' ', '\t', '\n', '\r', '\x0b', '\x0c', '\u00A0', '\u1680',
   '\u2000', '\u2001', '\u2002', '\u2003', '\u2004', '\u2005', '\u2006',
   '\u2007', '\u2008', '\u2009', '\u200A', '\u2028', '\u2029', '\u202F',
   '\u205F', '\u3000', '\uFEFF']

/-- Whether a character is JavaScript whitespace. -/
def jsWs (c : Char) : Bool := jsWsChars.contains c

/-- The JavaScript line terminators, which the regex `.` does not match. -/
def lineTermChar (c : Char) : Bool :=
  c = '\n' || c = '\r' || c = '\u2028' || c = '\u2029'

/-- JavaScript `String.prototype.trim`: strip whitespace from both ends. -/
def trimChars (s : Str) : Str :=
  ((s.dropWhile jsWs).reverse.dropWhile jsWs).reverse

/-- JavaScript `text.split(/\r?\n/)`: split on `\r\n` or bare `\n`
(a lone `\r` is not a separator).  Scans left to right, `\r\n` preferred. -/
def splitLines : Str → List Str
  | [] => [[]]
  | '\r' :: '\n' :: rest => [] :: splitLines rest
  | '\n' :: rest => [] :: splitLines rest
  | c :: rest => (splitLines rest).modifyHead (c :: ·)

/-- Length of the match of `/^\s*/` on a line. -/
def leadingWsLen (l : Str) : Nat := (l.takeWhile jsWs).length

/-- The minimum indentation of a list of lines, as computed by
`reduce((min, len) => Math.min(min, len), Infinity)` (for a non-empty
list the `Infinity` start value is irrelevant). -/
def minIndent (ls : List Str) : Nat :=
  match ls.map leadingWsLen with
  | [] => 0
  | n :: ns => ns.foldl Nat.min n

/-- The body of `cleanupContent` after the line split
(src/parser.ts lines 10-31): filter blank lines, dedent by the common
minimum indentation when it is positive, re-join with LF and trim. -/
def cleanupLines (lines : List Str) : Str :=
  let nonEmptyLines := lines.filter (fun l => !(trimChars l).isEmpty)
  if nonEmptyLines.isEmpty then []
  else
    let mi := minIndent nonEmptyLines
    let dedentedLines := if 0 < mi then lines.map (List.drop mi) else lines
    trimChars (List.intercalate ['\n'] dedentedLines)

/-- `cleanupContent` (src/parser.ts lines 10-31). -/
def cleanupContent (text : Str) : Str := cleanupLines (splitLines text)

/-- A proposed file change (src/types.ts): a path and the full new content. -/
structure FileChange where
  filePath : Str
  newContent : Str
deriving DecidableEq, Repr

/-!
The parser `parseLLMResponse` (src/parser.ts lines 33-57) repeatedly
applies the JavaScript regex

  `<!-- FILE_START: (.*?) -->\s*` ``` `[^\r\n]*\r?\n([\s\S]*?)\s*` ``` `\s*<!-- FILE_END: \1 -->`

with the `g` flag.  The executable matcher below reproduces the regex
engine's leftmost-match and quantifier-preference semantics, specialised
to this pattern:

* `exec` finds the earliest starting position at which the whole pattern
  matches (`scanBlocks` tries each position in turn);
* group 1 `(.*?)` is lazy: candidate path payloads are tried shortest
  first, each candidate being every non-line-terminator run up to an
  occurrence of the literal ` -->` (`takePath`);
* `\s*` followed by a non-whitespace literal is deterministic (greedy
  skip, no useful backtracking), since no whitespace character can begin
  the literal (`skipWs` then `litTok`);
* `[^\r\n]*\r?\n` greedily consumes the rest of the fence line and then
  requires `\r\n` or `\n` (`fenceLineRest`); a shorter match of
  `[^\r\n]*` cannot help because `\r?\n` can only start at a `\r` or `\n`;
* group 2 `([\s\S]*?)` is lazy: content end positions are tried shortest
  first, each checked against `\s*` ``` `\s*<!-- FILE_END: \1 -->`
  (`takeContent` / `matchClose`).
-/

/-- Literal token match: on success return the rest of the input. -/
def litTok (pat s : Str) : Option Str :=
  if pat.isPrefixOf s then some (s.drop pat.length) else none

/-- Greedy `\s*`. -/
def skipWs (s : Str) : Str := s.dropWhile jsWs

/-- The literal before the path payload in a start marker. -/
def startTag : Str := "<!-- FILE_START: ".toList

/-- The literal ` -->` terminating a marker's path payload. -/
def termTag : Str := " -->".toList

/-- The three-backtick fence token. -/
def fenceTok : Str := "```".toList

/-- The full end marker for path payload `p`: `<!-- FILE_END: p -->`
(the regex backreference `\1` makes the payload exact). -/
def endTagOf (p : Str) : Str := "<!-- FILE_END: ".toList ++ p ++ " -->".toList

/-- `[^\r\n]*\r?\n`: greedily consume the rest of the opening fence line,
then require a line break. -/
def fenceLineRest (s : Str) : Option Str :=
  match s.dropWhile (fun c => !(c == '\n' || c == '\r')) with
  | '\r' :: '\n' :: r => some r
  | '\n' :: r => some r
  | _ => none

/-- `\s*` ``` `\s*<!-- FILE_END: p -->`: the closing sequence tried at a
candidate content end position. -/
def matchClose (p s : Str) : Option Str :=
  (litTok fenceTok (skipWs s)).bind fun s1 =>
    litTok (endTagOf p) (skipWs s1)

/-- Lazy group 2: try ending the content at each successive position,
accumulating the content consumed so far (reversed) in `acc`. -/
def takeContent (p acc s : Str) : Option (Str × Str) :=
  match matchClose p s with
  | some rest => some (acc.reverse, rest)
  | none =>
    match s with
    | [] => none
    | ch :: s' => takeContent p (ch :: acc) s'

/-- After a complete start marker with payload `p`: `\s*` ``` then the
fence line, then the lazy content capture. -/
def matchFenced (p s : Str) : Option (Str × Str × Str) :=
  (litTok fenceTok (skipWs s)).bind fun s1 =>
    (fenceLineRest s1).bind fun s2 =>
      (takeContent p [] s2).map fun cr => (p, cr.1, cr.2)

/-- Lazy group 1: extend the path payload one non-line-terminator
character at a time; whenever the input continues with ` -->`, first try
to complete the whole pattern with the payload accumulated so far, and
fall back to extending the payload. -/
def takePath (acc s : Str) : Option (Str × Str × Str) :=
  match s with
  | [] => none
  | ch :: s' =>
    if lineTermChar ch then none
    else
      match
        (if termTag.isPrefixOf (ch :: s') then
          matchFenced acc.reverse ((ch :: s').drop termTag.length)
        else none) with
      | some r => some r
      | none => takePath (ch :: acc) s'

/-- Attempt to match the whole pattern anchored at the current position. -/
def matchBlockAt (s : Str) : Option (Str × Str × Str) :=
  (litTok startTag s).bind (takePath [])

/-- Repeated `exec`: try the pattern at each position, left to right;
after a match, continue after it.  `fuel` bounds the recursion (the
input length plus one always suffices). -/
def scanBlocks : Nat → Str → List FileChange
  | 0, _ => []
  | fuel + 1, s =>
    match matchBlockAt s with
    | some (p, content, rest) =>
      { filePath := trimChars p, newContent := cleanupContent content } ::
        scanBlocks fuel rest
    | none =>
      match s with
      | [] => []
      | _ :: s' => scanBlocks fuel s'

/-- `parseLLMResponse` (src/parser.ts lines 33-57). -/
def parseLLMResponse (text : Str) : List FileChange :=
  scanBlocks (text.length + 1) text

/-!
Path sanitization (src/utils.ts lines 25-41).  `path.posix.normalize` is
modelled segment-wise, following Node's `normalizeString`: empty and `.`
segments are dropped; `..` pops the previous ordinary segment, is kept
(stacked) for relative paths when nothing can be popped, and is dropped
at the root of absolute paths.
-/

/-- The one-character segment `.`. -/
def dotSeg : Str := ".".toList

/-- The two-character segment `..`. -/
def dotDotSeg : Str := "..".toList

/-- Split a string on `/` (keeping empty segments, like `String.split`). -/
def splitOnSlash : Str → List Str
  | [] => [[]]
  | c :: rest =>
    if c = '/' then [] :: splitOnSlash rest
    else (splitOnSlash rest).modifyHead (c :: ·)

/-- Node `normalizeString`: process segments against a stack (held in
reverse).  `allowAbove` is true for relative paths, where unmatched `..`
segments are preserved. -/
def normSegs (allowAbove : Bool) : List Str → List Str → List Str
  | stack, [] => stack.reverse
  | stack, seg :: rest =>
    if seg = [] ∨ seg = dotSeg then normSegs allowAbove stack rest
    else if seg = dotDotSeg then
      match stack with
      | [] => normSegs allowAbove (if allowAbove then [dotDotSeg] else []) rest
      | top :: stack' =>
        if top = dotDotSeg then
          normSegs allowAbove (if allowAbove then dotDotSeg :: stack else stack) rest
        else normSegs allowAbove stack' rest
    else normSegs allowAbove (seg :: stack) rest

/-- `path.posix.normalize` (Node).  An empty input yields `.`; absolute
inputs keep their leading `/` and resolve `..` at the root away; a
trailing slash is preserved. -/
def posixNormalize (p : Str) : Str :=
  if p = [] then dotSeg
  else
    let isAbs : Bool := p.head? == some '/'
    let trail : Bool := p.getLast? == some '/'
    let core := normSegs (!isAbs) [] (splitOnSlash p)
    let body := List.intercalate ['/'] core
    if body = [] then
      if isAbs then ['/'] else if trail then '.' :: ['/'] else dotSeg
    else
      let body2 := if trail then body ++ ['/'] else body
      if isAbs then '/' :: body2 else body2

/-- JavaScript `replace(/\/+$/, '')`: strip all trailing slashes. -/
def stripTrailingSlashes (s : Str) : Str :=
  (s.reverse.dropWhile (fun c => c == '/')).reverse

/-- `sanitizeFilePath` (src/utils.ts lines 25-41). -/
def sanitizeFilePath (filePath : Str) : Str :=
  let trimmed := trimChars filePath
  if trimmed = [] then []
  else
    let replaced := trimmed.map fun c => if c = '\\' then '/' else c
    let normalized := posixNormalize replaced
    let normalized2 := stripTrailingSlashes normalized
    if normalized2 = dotSeg ∨ normalized2 = [] then [] else normalized2

/-!
Content normalization (src/utils.ts lines 64-148).  The filesystem
interaction of `normalizeChanges` (workspace-root resolution plus
`fs.existsSync`/`fs.readFileSync` with its catch, lines 82-113) is the
content-lookup collaborator of the spec and is passed in as `lookup`;
the `files.eol` configuration (lines 65-73) is passed in as `eol`.
-/

/-- The effective end-of-line setting (`\n` or `\r\n`). -/
inductive Eol
  | lf
  | crlf
deriving DecidableEq, Repr

/-- JavaScript `replace(/\r\n/g, '\n')`: left-to-right, non-overlapping. -/
def replCrlfLf : Str → Str
  | [] => []
  | '\r' :: '\n' :: rest => '\n' :: replCrlfLf rest
  | c :: rest => c :: replCrlfLf rest

/-- JavaScript `replace(/\n/g, '\r\n')`. -/
def crlfExpand : Str → Str
  | [] => []
  | '\n' :: rest => '\r' :: '\n' :: crlfExpand rest
  | c :: rest => c :: crlfExpand rest

/-- Lines 134-138: normalize to LF first, then apply the target EOL. -/
def applyEol (eol : Eol) (s : Str) : Str :=
  let lfOnly := replCrlfLf s
  match eol with
  | .lf => lfOnly
  | .crlf => crlfExpand lfOnly

/-- JavaScript `s.endsWith(pat)`. -/
def endsWith (pat s : Str) : Bool := pat.isSuffixOf s

/-- Lines 115-132: re-add a trailing newline based on the existing
file's style (`existing = none` means the target file does not exist). -/
def applyTrailingStyle (existing : Option Str) (c : Str) : Str :=
  match existing with
  | some e =>
    if endsWith "\r\n\r\n".toList e || endsWith "\n\n".toList e then c ++ ['\n', '\n']
    else if endsWith "\r\n".toList e || endsWith "\n".toList e then c ++ ['\n']
    else c
  | none => if 0 < c.length then c ++ ['\n'] else c

/-- `normalizeChanges` (src/utils.ts lines 64-148): sanitize each path
(dropping invalid ones), apply the trailing-newline policy against the
looked-up existing content, and apply the EOL setting. -/
def normalizeChanges (lookup : Str → Option Str) (eol : Eol)
    (changes : List FileChange) : List FileChange :=
  changes.filterMap fun change =>
    let sanitizedPath := sanitizeFilePath change.filePath
    if sanitizedPath = [] then none
    else
      let existingContent := lookup sanitizedPath
      let newContent := applyTrailingStyle existingContent change.newContent
      let finalContent := applyEol eol newContent
      some { filePath := sanitizedPath, newContent := finalContent }

/-- The full content-normalization step applied to one candidate's raw
content: dedent/outer-trim/LF-join (`cleanupContent`, applied by the
parser), then the trailing-newline policy and the EOL setting
(`normalizeChanges`), with a fixed target-file state `existing`. -/
def normContent (existing : Option Str) (eol : Eol) (x : Str) : Str :=
  applyEol eol (applyTrailingStyle existing (cleanupContent x))

/-!
Reconciliation (src/webview.ts lines 83-114, `InputViewProvider._runPreview`).
The `try`/`catch` around `resolveWorkspaceFileUri` + `workspace.fs.readFile`
is the content-lookup collaborator: `found` is a successful read,
`notFound` is a `FileSystemError` with code `FileNotFound`, and
`readError` is any other thrown error.
-/

/-- Outcome of looking up the current content of a candidate's target. -/
inductive LookupOutcome
  | found (content : Str)
  | notFound
  | readError
deriving DecidableEq, Repr

/-- The `isDifferent` flag computed for one candidate (lines 85-109):
on a successful read, compare both contents with line endings normalized
to LF; on `FileNotFound`, keep iff the content is non-empty; on any
other error, keep. -/
def keepChange (lk : Str → LookupOutcome) (change : FileChange) : Bool :=
  match lk change.filePath with
  | .found current => !(replCrlfLf current == replCrlfLf change.newContent)
  | .notFound => decide (0 < change.newContent.length)
  | .readError => true

/-- The `pendingChanges` list built by `_runPreview` (lines 83-114). -/
def runPreviewPending (lk : Str → LookupOutcome)
    (normalized : List FileChange) : List FileChange :=
  normalized.filter (keepChange lk)

/-- The exclusion condition as the spec states it: dropped iff the
target was found with textually identical content after LF
normalization, or was not found and the candidate content is empty. -/
def claimExcluded (lk : Str → LookupOutcome) (change : FileChange) : Prop :=
  (∃ current, lk change.filePath = .found current ∧
    replCrlfLf current = replCrlfLf change.newContent) ∨
  (lk change.filePath = .notFound ∧ change.newContent = [])


/-- The spec's exclusion condition as a decidable check (used to state
that the code's filter agrees with it). -/
def claimExcludedB (lk : Str → LookupOutcome) (change : FileChange) : Bool :=
  match lk change.filePath with
  | .found current => replCrlfLf current == replCrlfLf change.newContent
  | .notFound => change.newContent.isEmpty
  | .readError => false

/-!
The change set (src/providers.ts, `FileChangeProvider`).  JavaScript
object references are modelled by making the element type a parameter:
instantiating `α` with an address type (`Nat`) gives the `!==` identity
semantics of `removeChange`; the stored values then live in a heap
`Nat → FileChange` kept alongside.
-/

/-- `FileChangeProvider` state: the private `_changes` array. -/
structure FileChangeProvider (α : Type) where
  _changes : List α
deriving DecidableEq, Repr

/-- `setChanges` (src/providers.ts lines 26-30): replace wholesale. -/
def FileChangeProvider.setChanges (_s : FileChangeProvider α)
    (changes : List α) : FileChangeProvider α :=
  { _changes := changes }

/-- `removeChange` (src/providers.ts lines 32-36):
`this._changes.filter(c => c !== change)`. -/
def FileChangeProvider.removeChange [DecidableEq α] (s : FileChangeProvider α)
    (change : α) : FileChangeProvider α :=
  { _changes := s._changes.filter (fun c => c != change) }

/-- `clear` (src/providers.ts lines 57-61). -/
def FileChangeProvider.clear (_s : FileChangeProvider α) : FileChangeProvider α :=
  { _changes := [] }

/-- `getChanges` (src/providers.ts lines 63-65). -/
def FileChangeProvider.getChanges (s : FileChangeProvider α) : List α :=
  s._changes

/-- One preview cycle as run by `_runPreview` (src/webview.ts lines
74-131): parse, normalize, reconcile, and replace the change set. -/
def runPreviewCycle (lkN : Str → Option Str) (eol : Eol)
    (lkR : Str → LookupOutcome) (s : FileChangeProvider FileChange)
    (text : Str) : FileChangeProvider FileChange :=
  s.setChanges (runPreviewPending lkR (normalizeChanges lkN eol (parseLLMResponse text)))

/-!
Write-target resolution (src/utils.ts lines 150-179,
`resolveWorkspaceFileUri`), modelled over POSIX paths as segment lists.
The workspace root is an absolute directory given by its (plain)
segments.  `vscode.Uri.joinPath` joins and normalizes POSIX-style
(`..` cannot go above the filesystem root), and `path.relative`
compares the two absolute paths segment-wise.
-/

/-- Error outcomes of `resolveWorkspaceFileUri` (thrown `Error`s). -/
inductive ResolveErr
  | invalidPath
  | traversal
deriving DecidableEq, Repr

/-- `sanitizedPath.split('/').filter(segment => segment.length > 0)`. -/
def splitSegs (s : Str) : List Str :=
  (splitOnSlash s).filter (fun seg => decide (0 < seg.length))

/-- Drop the common leading segments of two paths. -/
def dropCommon : List Str → List Str → List Str × List Str
  | a :: as, b :: bs => if a = b then dropCommon as bs else (a :: as, b :: bs)
  | as, bs => (as, bs)

/-- `path.posix.relative` on two absolute, normalized segment paths. -/
def relSegsOf (fromSegs toSegs : List Str) : List Str :=
  let p := dropCommon fromSegs toSegs
  List.replicate p.1.length dotDotSeg ++ p.2

/-- JavaScript `s.startsWith('..')`. -/
def strStartsWithDotDot (s : Str) : Bool := dotDotSeg.isPrefixOf s

/-- `path.isAbsolute` on a POSIX path string. -/
def strIsAbs (s : Str) : Bool := s.head? == some '/'

/-- `resolveWorkspaceFileUri` (src/utils.ts lines 150-179).  The
no-workspace branch (lines 152-154) is outside this model: `root` is
the first workspace folder's segments. -/
def resolveWorkspaceFileUri (root : List Str) (filePath : Str) :
    Except ResolveErr (List Str) :=
  let sanitizedPath := sanitizeFilePath filePath
  if sanitizedPath = [] then .error .invalidPath
  else
    let pathSegments := splitSegs sanitizedPath
    if pathSegments = [] then .error .invalidPath
    else
      let fileSegs := normSegs false [] (root ++ pathSegments)
      let relativePath := List.intercalate ['/'] (relSegsOf (normSegs false [] root) fileSegs)
      if strStartsWithDotDot relativePath || strIsAbs relativePath then .error .traversal
      else .ok fileSegs

/-- The preview input used to exhibit duplicate paths in the change set:
two well-formed blocks for the same path `a.txt`. -/
def dupPathText : Str :=
  ("<!-- FILE_START: a.txt -->\n```\nX\n```\n<!-- FILE_END: a.txt -->\n" ++
   "<!-- FILE_START: a.txt -->\n```\nY\n```\n<!-- FILE_END: a.txt -->").toList

/-- A plain path segment: what a real workspace-root directory segment
looks like (non-empty, not a dot segment, no separator). -/
def plainSeg (seg : Str) : Prop :=
  seg ≠ [] ∧ seg ≠ dotSeg ∧ seg ≠ dotDotSeg ∧ '/' ∉ seg

instance : DecidablePred plainSeg := fun seg => by
  unfold plainSeg
  infer_instance

instance : DecidableEq (Except ResolveErr (List Str)) := fun a b =>
  match a, b with
  | .ok x, .ok y => decidable_of_iff (x = y) (by simp)
  | .error x, .error y => decidable_of_iff (x = y) (by simp)
  | .ok _, .error _ => isFalse (by simp)
  | .error _, .ok _ => isFalse (by simp)

/-- Whether every `\r` in the string is immediately followed by `\n`
(true of any text using only LF or only CRLF line endings). -/
def crPairedB : Str → Bool
  | [] => true
  | c :: rest =>
    (decide (c ≠ '\x0d') || decide (rest.head? = some '\n')) && crPairedB rest

/-!
Infrastructure for the parser proofs (C2, C9).
-/

/-- Whether `pat` occurs as a contiguous substring of `s`. -/
def occursInB (pat s : Str) : Bool :=
  (List.range (s.length + 1)).any (fun j => pat.isPrefixOf (s.drop j))

/-- The text between a fenced content body and its end marker:
newline, closing fence, newline. -/
def sepStr : Str := '\n' :: fenceTok ++ ['\n']

/-- A well-formed block with start payload `p`, fence language tag
`lang`, content `c`, and end payload `q`. -/
def mkEndBlock (p lang c q : Str) : Str :=
  startTag ++ p ++ termTag ++ '\n' :: fenceTok ++ lang ++ '\n' :: c ++
    sepStr ++ endTagOf q

/-- A well-formed block whose end payload matches its start payload. -/
def mkBlock (p lang c : Str) : Str := mkEndBlock p lang c p

/-- Hygiene conditions on a start-marker path payload: no line
terminators or `<`, and no early ` -->` occurrence (so the lazy group 1
first completes exactly at the payload's end). -/
def pathOkB (p : Str) : Bool :=
  p.all (fun a => !(lineTermChar a) && !(a == '<')) &&
  (List.range p.length).all (fun k => !(termTag.isPrefixOf (p.drop k ++ termTag)))

/-- Hygiene condition on a fence language tag: no line breaks. -/
def langOkB (lang : Str) : Bool :=
  lang.all (fun a => !(a == '\n' || a == '\x0d'))

/-- The backtick character (written via a string to keep the source
free of raw backtick literals). -/
def btChar : Char := "`".toList.headI

/-- Decidable statement that a content string has no trailing
whitespace character. -/
def noTrailWs (c : Str) : Bool := c.getLast?.all (fun a => !(jsWs a))

/-!
Shared small lemmas.
-/

theorem keepChange_eq_not_claimExcludedB (lk : Str → LookupOutcome) (ch : FileChange) :
    keepChange lk ch = !(claimExcludedB lk ch) := by
  unfold keepChange claimExcludedB
  cases lk ch.filePath with
  | found current => simp
  | notFound =>
    simp only [Bool.not_eq_true']
    cases h : ch.newContent with
    | nil => simp [List.isEmpty]
    | cons a l => simp [List.isEmpty]
  | readError => simp

/-- C1: the reconciliation step keeps exactly the candidates not excluded
by the spec's condition, in input order. -/
theorem runPreviewPending_claim (lk : Str → LookupOutcome) (cs : List FileChange) :
    runPreviewPending lk cs = cs.filter (fun ch => !(claimExcludedB lk ch)) ∧
    (∀ ch, claimExcludedB lk ch = true ↔ claimExcluded lk ch) ∧
    (runPreviewPending lk cs).Sublist cs := by
  refine ⟨?_, ?_, ?_⟩
  · unfold runPreviewPending
    exact List.filter_congr (fun ch _ => keepChange_eq_not_claimExcludedB lk ch)
  · intro ch
    unfold claimExcludedB claimExcluded
    cases h : lk ch.filePath with
    | found current => simp [h]
    | notFound => cases hc : ch.newContent with
      | nil => simp [h, hc, List.isEmpty]
      | cons a l => simp [h, hc, List.isEmpty]
    | readError => simp [h]
  · exact List.filter_sublist _


/-- C4 counterexample: a preview cycle whose input contains two changes
with the same path leaves BOTH entries in the change set (no operation
deduplicates by path), contradicting the claimed uniqueness invariant. -/
theorem changeSet_dup_paths_cex :
    (runPreviewCycle (fun _ => none) .lf (fun _ => .notFound)
        ⟨[]⟩ dupPathText)._changes
      = [⟨"a.txt".toList, "X\n".toList⟩, ⟨"a.txt".toList, "Y\n".toList⟩] ∧
    ¬ List.Pairwise (fun a b : FileChange => a.filePath ≠ b.filePath)
        (runPreviewCycle (fun _ => none) .lf (fun _ => .notFound)
          ⟨[]⟩ dupPathText)._changes := by
  constructor
  · decide
  · decide

/-- C4 amended: the set operations enforce no path uniqueness at all:
`setChanges` stores the given list verbatim (duplicate paths included),
`clear` empties the set, and `removeChange` only filters entries. -/
theorem changeSet_no_dedup (α : Type) (s : FileChangeProvider α) (cs : List α) :
    (s.setChanges cs)._changes = cs ∧ (s.clear)._changes = [] := ⟨rfl, rfl⟩

/-- C10: `removeChange` filters by identity (`!==`), here modelled by
addresses `Nat` with the object contents in a heap `h`: a change that is
not an entry is a no-op even when `h` assigns it contents equal to an
entry's; removal of an entry keeps a sublist, and on a duplicate-free
set removes exactly that entry. -/
theorem removeChange_identity (h : Nat → FileChange) (s : FileChangeProvider Nat) (r : Nat) :
    (r ∉ s._changes → s.removeChange r = s) ∧
    (s.removeChange r)._changes = s._changes.filter (fun c => c != r) ∧
    ((s.removeChange r)._changes).Sublist s._changes ∧
    (s._changes.Nodup → (s.removeChange r)._changes = s._changes.erase r) ∧
    (∀ r', r' ∈ s._changes → r' ≠ r → h r' = h r →
      r' ∈ (s.removeChange r)._changes) := by
  refine ⟨?_, rfl, List.filter_sublist _, ?_, ?_⟩
  · intro hr
    unfold FileChangeProvider.removeChange
    cases s with
    | mk cs =>
      simp only [FileChangeProvider.mk.injEq]
      apply List.filter_eq_self.mpr
      intro a ha
      simp only [bne_iff_ne, ne_eq]
      exact fun e => hr (e ▸ ha)
  · intro hnd
    unfold FileChangeProvider.removeChange
    rw [hnd.erase_eq_filter r]
  · intro r' hmem hne _
    unfold FileChangeProvider.removeChange
    simp only [List.mem_filter]
    exact ⟨hmem, by simpa using hne⟩

/-- C10 witness: concrete application of `removeChange_identity`. -/
theorem removeChange_identity_witness :
    ((⟨[0, 1]⟩ : FileChangeProvider Nat).removeChange 2 = ⟨[0, 1]⟩) ∧
    ((⟨[0, 1]⟩ : FileChangeProvider Nat).removeChange 0)._changes = [1] := by
  have h := removeChange_identity (fun _ => ⟨[], []⟩) ⟨[0, 1]⟩ 2
  have h0 := removeChange_identity (fun _ => ⟨[], []⟩) ⟨[0, 1]⟩ 0
  refine ⟨h.1 (by decide), ?_⟩
  rw [h0.2.2.2.1 (by decide)]
  decide

/-!
Character-subset lemmas: sanitization only ever removes characters or
introduces `/` and `.`.
-/

theorem mem_trimChars {c : Char} {s : Str} (h : c ∈ trimChars s) : c ∈ s := by
  unfold trimChars at h
  rw [List.mem_reverse] at h
  have h1 := (List.dropWhile_sublist _).mem h
  rw [List.mem_reverse] at h1
  exact (List.dropWhile_sublist _).mem h1

theorem mem_stripTrailingSlashes {c : Char} {s : Str} (h : c ∈ stripTrailingSlashes s) :
    c ∈ s := by
  unfold stripTrailingSlashes at h
  rw [List.mem_reverse] at h
  have h1 := (List.dropWhile_sublist _).mem h
  rwa [List.mem_reverse] at h1

theorem splitOnSlash_ne_nil (s : Str) : splitOnSlash s ≠ [] := by
  match s with
  | [] => simp [splitOnSlash]
  | c :: rest =>
    by_cases hc : c = '/'
    · simp [splitOnSlash, hc]
    · simp only [splitOnSlash, if_neg hc]
      have := splitOnSlash_ne_nil rest
      cases h : splitOnSlash rest with
      | nil => exact absurd h this
      | cons a l => simp [List.modifyHead]

theorem mem_splitOnSlash {c : Char} {seg s : Str} :
    seg ∈ splitOnSlash s → c ∈ seg → c ∈ s := by
  induction s generalizing seg with
  | nil =>
    intro hseg hc
    simp [splitOnSlash] at hseg
    subst hseg
    exact absurd hc (List.not_mem_nil c)
  | cons a rest ih =>
    intro hseg hc
    by_cases ha : a = '/'
    · simp only [splitOnSlash, if_pos ha] at hseg
      rcases List.mem_cons.mp hseg with h | h
      · subst h; exact absurd hc (List.not_mem_nil c)
      · exact List.mem_cons_of_mem a (ih h hc)
    · simp only [splitOnSlash, if_neg ha] at hseg
      cases hsp : splitOnSlash rest with
      | nil => exact absurd hsp (splitOnSlash_ne_nil rest)
      | cons b l =>
        rw [hsp] at hseg
        simp only [List.modifyHead] at hseg
        rcases List.mem_cons.mp hseg with h | h
        · subst h
          rcases List.mem_cons.mp hc with h1 | h1
          · rw [h1]; exact List.mem_cons_self a rest
          · refine List.mem_cons_of_mem a (ih ?_ h1)
            rw [hsp]; exact List.mem_cons_self b l
        · refine List.mem_cons_of_mem a (ih ?_ hc)
          rw [hsp]; exact List.mem_cons_of_mem b h

theorem mem_normSegs {seg : Str} (allow : Bool) (stack segs : List Str)
    (h : seg ∈ normSegs allow stack segs) :
    seg ∈ stack ∨ seg = dotDotSeg ∨ seg ∈ segs := by
  induction segs generalizing stack with
  | nil =>
    simp only [normSegs, List.mem_reverse] at h
    exact Or.inl h
  | cons s rest ih =>
    have push : ∀ stack' : List Str,
        (seg ∈ stack' ∨ seg = dotDotSeg ∨ seg ∈ rest) →
        (seg ∈ stack' ∨ seg = dotDotSeg ∨ seg ∈ s :: rest) := by
      intro stack' hx
      rcases hx with h1 | h1 | h1
      · exact Or.inl h1
      · exact Or.inr (Or.inl h1)
      · exact Or.inr (Or.inr (List.mem_cons_of_mem s h1))
    by_cases h1 : s = [] ∨ s = dotSeg
    · simp only [normSegs, if_pos h1] at h
      exact push stack (ih _ h)
    · by_cases h2 : s = dotDotSeg
      · cases stack with
        | nil =>
          by_cases hA : allow = true
          · simp only [normSegs, if_neg h1, if_pos h2, if_pos hA] at h
            rcases push _ (ih _ h) with hx | hx | hx
            · exact Or.inr (Or.inl (List.mem_singleton.mp hx))
            · exact Or.inr (Or.inl hx)
            · exact Or.inr (Or.inr hx)
          · simp only [normSegs, if_neg h1, if_pos h2, if_neg hA] at h
            rcases push _ (ih _ h) with hx | hx | hx
            · exact absurd hx (List.not_mem_nil seg)
            · exact Or.inr (Or.inl hx)
            · exact Or.inr (Or.inr hx)
        | cons top stack' =>
          by_cases h3 : top = dotDotSeg
          · by_cases hA : allow = true
            · simp only [normSegs, if_neg h1, if_pos h2, if_pos h3, if_pos hA] at h
              rcases push _ (ih _ h) with hx | hx | hx
              · rcases List.mem_cons.mp hx with h4 | h4
                · exact Or.inr (Or.inl h4)
                · exact Or.inl h4
              · exact Or.inr (Or.inl hx)
              · exact Or.inr (Or.inr hx)
            · simp only [normSegs, if_neg h1, if_pos h2, if_pos h3, if_neg hA] at h
              rcases push _ (ih _ h) with hx | hx | hx
              · exact Or.inl hx
              · exact Or.inr (Or.inl hx)
              · exact Or.inr (Or.inr hx)
          · simp only [normSegs, if_neg h1, if_pos h2, if_neg h3] at h
            rcases push _ (ih _ h) with hx | hx | hx
            · exact Or.inl (List.mem_cons_of_mem top hx)
            · exact Or.inr (Or.inl hx)
            · exact Or.inr (Or.inr hx)
      · simp only [normSegs, if_neg h1, if_neg h2] at h
        rcases push _ (ih _ h) with hx | hx | hx
        · rcases List.mem_cons.mp hx with h4 | h4
          · refine Or.inr (Or.inr ?_)
            rw [h4]; exact List.mem_cons_self s rest
          · exact Or.inl h4
        · exact Or.inr (Or.inl hx)
        · exact Or.inr (Or.inr hx)

theorem intercalate_nil_segs (sep : Str) : List.intercalate sep ([] : List Str) = [] := by
  simp [List.intercalate, List.intersperse]

theorem intercalate_single (sep x : Str) : List.intercalate sep [x] = x := by
  simp [List.intercalate, List.intersperse]

theorem intercalate_cons₂ (sep x y : Str) (rest : List Str) :
    List.intercalate sep (x :: y :: rest) = x ++ sep ++ List.intercalate sep (y :: rest) := by
  simp [List.intercalate, List.intersperse]

theorem mem_intercalate {c : Char} {sep : Str} {segs : List Str}
    (h : c ∈ List.intercalate sep segs) : c ∈ sep ∨ ∃ seg ∈ segs, c ∈ seg := by
  induction segs with
  | nil => rw [intercalate_nil_segs] at h; exact absurd h (List.not_mem_nil c)
  | cons x rest ih =>
    cases rest with
    | nil =>
      rw [intercalate_single] at h
      exact Or.inr ⟨x, List.mem_cons_self x [], h⟩
    | cons y rest' =>
      rw [intercalate_cons₂] at h
      rcases List.mem_append.mp h with h1 | h1
      · rcases List.mem_append.mp h1 with h2 | h2
        · exact Or.inr ⟨x, List.mem_cons_self x _, h2⟩
        · exact Or.inl h2
      · rcases ih h1 with h2 | ⟨seg, hseg, hcseg⟩
        · exact Or.inl h2
        · exact Or.inr ⟨seg, List.mem_cons_of_mem x hseg, hcseg⟩

theorem mem_posixNormalize {c : Char} {p : Str} (h : c ∈ posixNormalize p) :
    c ∈ p ∨ c = '/' ∨ c = '.' := by
  unfold posixNormalize at h
  split at h
  · simp [dotSeg] at h
    exact Or.inr (Or.inr h)
  · simp only at h
    split at h
    · split at h
      · simp at h
        exact Or.inr (Or.inl h)
      · split at h
        · rcases List.mem_cons.mp h with h1 | h1
          · exact Or.inr (Or.inr h1)
          · simp at h1
            exact Or.inr (Or.inl h1)
        · simp [dotSeg] at h
          exact Or.inr (Or.inr h)
    · have mem_body : ∀ d : Char,
          d ∈ List.intercalate ['/'] (normSegs (!(p.head? == some '/')) [] (splitOnSlash p)) →
          d ∈ p ∨ d = '/' ∨ d = '.' := by
        intro d hd
        rcases mem_intercalate hd with h1 | ⟨seg, hseg, hdseg⟩
        · simp at h1
          exact Or.inr (Or.inl h1)
        · rcases mem_normSegs _ _ _ hseg with h2 | h2 | h2
          · exact absurd h2 (List.not_mem_nil seg)
          · subst h2
            simp [dotDotSeg] at hdseg
            exact Or.inr (Or.inr hdseg)
          · exact Or.inl (mem_splitOnSlash h2 hdseg)
      split at h
      · rcases List.mem_cons.mp h with h1 | h1
        · exact Or.inr (Or.inl h1)
        · split at h1
          · rcases List.mem_append.mp h1 with h2 | h2
            · exact mem_body c h2
            · simp at h2
              exact Or.inr (Or.inl h2)
          · exact mem_body c h1
      · split at h
        · rcases List.mem_append.mp h with h2 | h2
          · exact mem_body c h2
          · simp at h2
            exact Or.inr (Or.inl h2)
        · exact mem_body c h

theorem sanitize_no_backslash (s : Str) : '\\' ∉ sanitizeFilePath s := by
  intro hmem
  simp only [sanitizeFilePath] at hmem
  split at hmem
  · exact List.not_mem_nil _ hmem
  · split at hmem
    · exact List.not_mem_nil _ hmem
    · have h1 := mem_stripTrailingSlashes hmem
      rcases mem_posixNormalize h1 with h2 | h2 | h2
      · rcases List.mem_map.mp h2 with ⟨a, _, ha⟩
        by_cases haa : a = '\\'
        · rw [if_pos haa] at ha; exact absurd ha (by decide)
        · rw [if_neg haa] at ha; exact haa (by rw [ha])
      · exact absurd h2 (by decide)
      · exact absurd h2 (by decide)

/-- C6 counterexample: the raw path `/etc/passwd` survives sanitization
as an absolute path, and `normalizeChanges` emits a `FileChange` whose
path is that absolute path. -/
theorem absolute_path_cex :
    sanitizeFilePath "/etc/passwd".toList = "/etc/passwd".toList ∧
    strIsAbs (sanitizeFilePath "/etc/passwd".toList) = true ∧
    normalizeChanges (fun _ => none) .lf [⟨"/etc/passwd".toList, "x".toList⟩]
      = [⟨"/etc/passwd".toList, "x\n".toList⟩] := by
  refine ⟨by decide, by decide, by decide⟩

/-- C6 amended: every `FileChange` produced by the pipeline has a
non-empty, forward-slash-separated path with no backslashes; however,
an absolute POSIX input path is preserved as absolute rather than made
relative. -/
theorem normalizeChanges_paths (lookup : Str → Option Str) (eol : Eol)
    (changes : List FileChange) :
    ∀ fc ∈ normalizeChanges lookup eol changes,
      ('\\' ∉ fc.filePath) ∧ fc.filePath ≠ [] ∧
      (∃ ch ∈ changes, fc.filePath = sanitizeFilePath ch.filePath) := by
  intro fc hfc
  simp only [normalizeChanges, List.mem_filterMap] at hfc
  obtain ⟨ch, hch, heq⟩ := hfc
  split at heq
  · exact absurd heq (by simp)
  · next hne =>
    have hfp : fc.filePath = sanitizeFilePath ch.filePath := by
      have := Option.some.inj heq
      rw [← this]
    refine ⟨?_, ?_, ⟨ch, hch, hfp⟩⟩
    · rw [hfp]; exact sanitize_no_backslash _
    · rw [hfp]; exact hne

/-- C6 amended witness. -/
theorem normalizeChanges_paths_witness :
    ('\\' ∉ ("src/app.ts".toList : Str)) ∧ ("src/app.ts".toList : Str) ≠ [] := by
  have h := normalizeChanges_paths (fun _ => none) .lf [⟨" src\\app.ts ".toList, "x".toList⟩]
  have hm : (⟨"src/app.ts".toList, "x\n".toList⟩ : FileChange) ∈
      normalizeChanges (fun _ => none) .lf [⟨" src\\app.ts ".toList, "x".toList⟩] := by
    decide
  exact ⟨(h _ hm).1, (h _ hm).2.1⟩

/-- `replace(/\r\n/g, '\n')` distributes over an append when the left
part does not end in a widow `\r`. -/
theorem replCrlfLf_append (a b : Str) (ha : a.getLast? ≠ some '\r') :
    replCrlfLf (a ++ b) = replCrlfLf a ++ replCrlfLf b := by
  induction a using replCrlfLf.induct with
  | case1 => simp [replCrlfLf]
  | case2 rest ih =>
    have hrest : rest.getLast? ≠ some '\r' := by
      intro hl
      apply ha
      cases rest with
      | nil => exact absurd hl (by simp)
      | cons x xs => simpa [List.getLast?_cons_cons] using hl
    simp only [List.cons_append, replCrlfLf, List.append_eq, ih hrest]
  | case3 c rest hne ih =>
    cases rest with
    | nil =>
      have hc : c ≠ '\r' := fun hcc => ha (by simp [hcc])
      have h1 : replCrlfLf (c :: b) = c :: replCrlfLf b :=
        replCrlfLf.eq_3 c b (fun _ hcr _ => hc hcr)
      have h2 : replCrlfLf [c] = c :: replCrlfLf [] :=
        replCrlfLf.eq_3 c [] (fun _ _ h => by cases h)
      simp [h1, h2, replCrlfLf]
    | cons x xs =>
      have hlast2 : (x :: xs).getLast? ≠ some '\r' := by
        simpa [List.getLast?_cons_cons] using ha
      have hcond : ∀ r1, c = '\r' → (x :: xs) ++ b = '\n' :: r1 → False := by
        intro r1 hcr hx
        have hxx : x = '\n' := by
          have := congrArg List.head? hx
          simpa using this
        exact hne xs hcr (by rw [hxx])
      have e1 := replCrlfLf.eq_3 c ((x :: xs) ++ b) hcond
      have e2 := replCrlfLf.eq_3 c (x :: xs) hne
      calc replCrlfLf ((c :: x :: xs) ++ b)
          = c :: replCrlfLf ((x :: xs) ++ b) := by simpa using e1
        _ = c :: (replCrlfLf (x :: xs) ++ replCrlfLf b) := by rw [ih hlast2]
        _ = replCrlfLf (c :: x :: xs) ++ replCrlfLf b := by rw [e2]; simp

/-- If `e` ends with `p` and `p` ends with `q`, then `e` ends with `q`. -/
theorem endsWith_trans {q p e : Str} (h1 : endsWith p e = true)
    (h2 : endsWith q p = true) : endsWith q e = true := by
  unfold endsWith at *
  rw [List.isSuffixOf_iff_suffix] at *
  exact h2.trans h1

/-- C3 amended: the trailing-newline policy applied by `normalizeChanges`
(with the LF EOL setting) to a candidate whose content ends in neither
`\n` nor `\r`: an existing target ending without a newline gets nothing
appended; ending with a newline but not with `\n\n` or `\r\n\r\n` gets
exactly one `\n`; ending with `\n\n` or `\r\n\r\n` gets exactly two; a
missing target gets one `\n` unless the content is empty.  (The original
claim's "ends with a trailing blank line" case is decided by the code
via the two literal suffix tests, which miss mixed endings such as
`\n\r\n` — see the counterexample.) -/
theorem normalizeChanges_trailing (lookup : Str → Option Str) (fp c : Str)
    (hsp : sanitizeFilePath fp ≠ [])
    (hn : c.getLast? ≠ some '\n') (hr : c.getLast? ≠ some '\r') :
    (lookup (sanitizeFilePath fp) = none →
      normalizeChanges lookup .lf [⟨fp, c⟩]
        = [⟨sanitizeFilePath fp, if c = [] then [] else replCrlfLf c ++ ['\n']⟩]) ∧
    (∀ e, lookup (sanitizeFilePath fp) = some e →
      endsWith ['\n'] e = false →
      normalizeChanges lookup .lf [⟨fp, c⟩] = [⟨sanitizeFilePath fp, replCrlfLf c⟩]) ∧
    (∀ e, lookup (sanitizeFilePath fp) = some e →
      endsWith ['\n'] e = true →
      endsWith ['\n', '\n'] e = false → endsWith ['\r', '\n', '\r', '\n'] e = false →
      normalizeChanges lookup .lf [⟨fp, c⟩]
        = [⟨sanitizeFilePath fp, replCrlfLf c ++ ['\n']⟩]) ∧
    (∀ e, lookup (sanitizeFilePath fp) = some e →
      (endsWith ['\n', '\n'] e = true ∨ endsWith ['\r', '\n', '\r', '\n'] e = true) →
      normalizeChanges lookup .lf [⟨fp, c⟩]
        = [⟨sanitizeFilePath fp, replCrlfLf c ++ ['\n', '\n']⟩]) := by
  have hbase : ∀ ex : Option Str, lookup (sanitizeFilePath fp) = ex →
      normalizeChanges lookup .lf [⟨fp, c⟩]
        = [⟨sanitizeFilePath fp, replCrlfLf (applyTrailingStyle ex c)⟩] := by
    intro ex hex
    simp only [normalizeChanges, List.filterMap_cons, List.filterMap_nil, if_neg hsp, hex,
      applyEol]
  refine ⟨?_, ?_, ?_, ?_⟩
  · intro hex
    rw [hbase none hex]
    by_cases hc : c = []
    · simp [applyTrailingStyle, hc, replCrlfLf]
    · have hlen : 0 < c.length := by
        cases c with
        | nil => exact absurd rfl hc
        | cons x xs => simp
      simp only [applyTrailingStyle, if_pos hlen, if_neg hc]
      rw [replCrlfLf_append c ['\n'] hr]
      simp [show replCrlfLf ['\n'] = ['\n'] from by decide]
  · intro e hex hend
    rw [hbase (some e) hex]
    have h2 : endsWith ['\n', '\n'] e = false := by
      cases h : endsWith ['\n', '\n'] e with
      | false => rfl
      | true =>
        have := endsWith_trans h (show endsWith ['\n'] ['\n', '\n'] = true from by decide)
        rw [hend] at this
        exact absurd this Bool.false_ne_true
    have h3 : endsWith ['\x0d', '\n', '\x0d', '\n'] e = false := by
      cases h : endsWith ['\x0d', '\n', '\x0d', '\n'] e with
      | false => rfl
      | true =>
        have := endsWith_trans h
          (show endsWith ['\n'] ['\x0d', '\n', '\x0d', '\n'] = true from by decide)
        rw [hend] at this
        exact absurd this Bool.false_ne_true
    have h4 : endsWith ['\x0d', '\n'] e = false := by
      cases h : endsWith ['\x0d', '\n'] e with
      | false => rfl
      | true =>
        have := endsWith_trans h (show endsWith ['\n'] ['\x0d', '\n'] = true from by decide)
        rw [hend] at this
        exact absurd this Bool.false_ne_true
    have hstyle : applyTrailingStyle (some e) c = c := by
      simp [applyTrailingStyle, h2, h3, h4, hend]
    rw [hstyle]
  · intro e hex hend h2 h3
    rw [hbase (some e) hex]
    have hstyle : applyTrailingStyle (some e) c = c ++ ['\n'] := by
      simp [applyTrailingStyle, h2, h3, hend]
    rw [hstyle, replCrlfLf_append c ['\n'] hr]
    simp [show replCrlfLf ['\n'] = ['\n'] from by decide]
  · intro e hex hor
    rw [hbase (some e) hex]
    have hstyle : applyTrailingStyle (some e) c = c ++ ['\n', '\n'] := by
      rcases hor with h | h <;> simp [applyTrailingStyle, h]
    rw [hstyle, replCrlfLf_append c ['\n', '\n'] hr]
    simp [show replCrlfLf ['\n', '\n'] = ['\n', '\n'] from by decide]

/-- C3 witness: concrete applications of `normalizeChanges_trailing`. -/
theorem normalizeChanges_trailing_witness :
    normalizeChanges (fun _ => some ("x\n".toList)) .lf [⟨"a.txt".toList, "y".toList⟩]
      = [⟨"a.txt".toList, "y\n".toList⟩] ∧
    normalizeChanges (fun _ => some ("x\n\n".toList)) .lf [⟨"b.txt".toList, "y".toList⟩]
      = [⟨"b.txt".toList, "y\n\n".toList⟩] := by
  constructor
  · exact (normalizeChanges_trailing (fun _ => some ("x\n".toList)) ("a.txt".toList)
      ("y".toList) (by decide) (by decide) (by decide)).2.2.1 ("x\n".toList) (by decide)
      (by decide) (by decide) (by decide)
  · exact (normalizeChanges_trailing (fun _ => some ("x\n\n".toList)) ("b.txt".toList)
      ("y".toList) (by decide) (by decide) (by decide)).2.2.2 ("x\n\n".toList) (by decide)
      (Or.inl (by decide))

/-- C3 counterexample: the existing content `x\n\r\n` ends with a
trailing blank line (its line split is `["x", "", ""]`), yet the code's
two literal suffix tests both fail on it, so only ONE newline is
appended instead of the blank line the claim requires. -/
theorem trailing_blank_line_cex :
    normalizeChanges (fun _ => some ("x\n\r\n".toList)) .lf [⟨"a.txt".toList, "y".toList⟩]
      = [⟨"a.txt".toList, "y\n".toList⟩] ∧
    splitLines ("x\n\r\n".toList) = [['x'], [], []] ∧
    ("y\n".toList : Str) ≠ "y".toList ++ ['\n', '\n'] := by
  refine ⟨by decide, by decide, by decide⟩

/-!
Structure of sanitized paths (for C5): the output is an optional leading
`/` followed by non-empty, slash-free, non-`.` segments joined by `/`.
-/

theorem splitOnSlash_no_slash {seg s : Str} (hseg : seg ∈ splitOnSlash s) : '/' ∉ seg := by
  induction s generalizing seg with
  | nil =>
    simp [splitOnSlash] at hseg
    subst hseg
    exact List.not_mem_nil _
  | cons a rest ih =>
    by_cases ha : a = '/'
    · simp only [splitOnSlash, if_pos ha] at hseg
      rcases List.mem_cons.mp hseg with h | h
      · subst h; exact List.not_mem_nil _
      · exact ih h
    · simp only [splitOnSlash, if_neg ha] at hseg
      cases hsp : splitOnSlash rest with
      | nil => exact absurd hsp (splitOnSlash_ne_nil rest)
      | cons b l =>
        rw [hsp] at hseg
        simp only [List.modifyHead] at hseg
        rcases List.mem_cons.mp hseg with h | h
        · subst h
          intro hmem
          rcases List.mem_cons.mp hmem with h1 | h1
          · exact ha h1.symm
          · exact ih (hsp ▸ List.mem_cons_self b l) h1
        · exact ih (hsp ▸ List.mem_cons_of_mem b h)

theorem normSegs_mem_strong {seg : Str} (allow : Bool) (stack segs : List Str)
    (h : seg ∈ normSegs allow stack segs) :
    seg ∈ stack ∨ seg = dotDotSeg ∨ (seg ∈ segs ∧ ¬(seg = [] ∨ seg = dotSeg)) := by
  induction segs generalizing stack with
  | nil =>
    simp only [normSegs, List.mem_reverse] at h
    exact Or.inl h
  | cons s rest ih =>
    have push : ∀ stack' : List Str,
        (seg ∈ stack' ∨ seg = dotDotSeg ∨ (seg ∈ rest ∧ ¬(seg = [] ∨ seg = dotSeg))) →
        (seg ∈ stack' ∨ seg = dotDotSeg ∨ (seg ∈ s :: rest ∧ ¬(seg = [] ∨ seg = dotSeg))) := by
      intro stack' hx
      rcases hx with h1 | h1 | ⟨h1, h1'⟩
      · exact Or.inl h1
      · exact Or.inr (Or.inl h1)
      · exact Or.inr (Or.inr ⟨List.mem_cons_of_mem s h1, h1'⟩)
    by_cases h1 : s = [] ∨ s = dotSeg
    · simp only [normSegs, if_pos h1] at h
      exact push stack (ih _ h)
    · by_cases h2 : s = dotDotSeg
      · cases stack with
        | nil =>
          by_cases hA : allow = true
          · simp only [normSegs, if_neg h1, if_pos h2, if_pos hA] at h
            rcases push _ (ih _ h) with hx | hx | hx
            · exact Or.inr (Or.inl (List.mem_singleton.mp hx))
            · exact Or.inr (Or.inl hx)
            · exact Or.inr (Or.inr hx)
          · simp only [normSegs, if_neg h1, if_pos h2, if_neg hA] at h
            rcases push _ (ih _ h) with hx | hx | hx
            · exact absurd hx (List.not_mem_nil seg)
            · exact Or.inr (Or.inl hx)
            · exact Or.inr (Or.inr hx)
        | cons top stack' =>
          by_cases h3 : top = dotDotSeg
          · by_cases hA : allow = true
            · simp only [normSegs, if_neg h1, if_pos h2, if_pos h3, if_pos hA] at h
              rcases push _ (ih _ h) with hx | hx | hx
              · rcases List.mem_cons.mp hx with h4 | h4
                · exact Or.inr (Or.inl h4)
                · exact Or.inl h4
              · exact Or.inr (Or.inl hx)
              · exact Or.inr (Or.inr hx)
            · simp only [normSegs, if_neg h1, if_pos h2, if_pos h3, if_neg hA] at h
              rcases push _ (ih _ h) with hx | hx | hx
              · exact Or.inl hx
              · exact Or.inr (Or.inl hx)
              · exact Or.inr (Or.inr hx)
          · simp only [normSegs, if_neg h1, if_pos h2, if_neg h3] at h
            rcases push _ (ih _ h) with hx | hx | hx
            · exact Or.inl (List.mem_cons_of_mem top hx)
            · exact Or.inr (Or.inl hx)
            · exact Or.inr (Or.inr hx)
      · simp only [normSegs, if_neg h1, if_neg h2] at h
        rcases push _ (ih _ h) with hx | hx | hx
        · rcases List.mem_cons.mp hx with h4 | h4
          · exact Or.inr (Or.inr ⟨by rw [h4]; exact List.mem_cons_self s rest, h4 ▸ h1⟩)
          · exact Or.inl h4
        · exact Or.inr (Or.inl hx)
        · exact Or.inr (Or.inr hx)

theorem intercalate_ne_nil (x : Str) (rest : List Str) (hx : x ≠ []) :
    List.intercalate ['/'] (x :: rest) ≠ [] := by
  cases rest with
  | nil => rw [intercalate_single]; exact hx
  | cons y rest' =>
    rw [intercalate_cons₂]
    simp

theorem intercalate_getLast {segs : List Str} (hne : segs ≠ [])
    (h : ∀ seg ∈ segs, seg ≠ [] ∧ '/' ∉ seg) :
    (List.intercalate ['/'] segs).getLast? ≠ some '/' := by
  induction segs with
  | nil => exact absurd rfl hne
  | cons x rest ih =>
    cases rest with
    | nil =>
      rw [intercalate_single]
      intro hl
      exact (h x (List.mem_cons_self _ _)).2 (List.mem_of_mem_getLast? hl)
    | cons y rest' =>
      rw [intercalate_cons₂]
      have hy : List.intercalate ['/'] (y :: rest') ≠ [] :=
        intercalate_ne_nil y rest' (h y (by simp)).1
      rw [List.getLast?_append_of_ne_nil _ hy]
      exact ih (by simp) (fun seg hs => h seg (List.mem_cons_of_mem _ hs))

theorem stripTrailingSlashes_eq_self {s : Str} (h : s.getLast? ≠ some '/') :
    stripTrailingSlashes s = s := by
  unfold stripTrailingSlashes
  cases hs : s.reverse with
  | nil =>
    have : s = [] := by simpa using congrArg List.reverse hs
    simp [this]
  | cons a t =>
    have ha : a ≠ '/' := by
      intro haa
      apply h
      rw [← List.head?_reverse, hs, haa]
      rfl
    rw [List.dropWhile_cons, if_neg (by simp [ha])]
    rw [← hs, List.reverse_reverse]

theorem stripTrailingSlashes_append_slash (s : Str) :
    stripTrailingSlashes (s ++ ['/']) = stripTrailingSlashes s := by
  unfold stripTrailingSlashes
  rw [List.reverse_append]
  simp [List.dropWhile_cons]

theorem splitOnSlash_of_no_slash {x : Str} (hx : '/' ∉ x) : splitOnSlash x = [x] := by
  induction x with
  | nil => simp [splitOnSlash]
  | cons a rest ih =>
    have ha : a ≠ '/' := fun h => hx (by rw [h]; exact List.mem_cons_self _ _)
    have hrest : '/' ∉ rest := fun h => hx (List.mem_cons_of_mem a h)
    simp only [splitOnSlash, if_neg ha, ih hrest, List.modifyHead]

theorem splitOnSlash_append_slash (x t : Str) (hx : '/' ∉ x) :
    splitOnSlash (x ++ '/' :: t) = x :: splitOnSlash t := by
  induction x with
  | nil => simp [splitOnSlash]
  | cons a rest ih =>
    have ha : a ≠ '/' := fun h => hx (by rw [h]; exact List.mem_cons_self _ _)
    have hrest : '/' ∉ rest := fun h => hx (List.mem_cons_of_mem a h)
    simp only [List.cons_append, splitOnSlash, if_neg ha, List.append_eq, ih hrest,
      List.modifyHead]

theorem splitOnSlash_intercalate {segs : List Str}
    (h : ∀ seg ∈ segs, '/' ∉ seg) (hne : segs ≠ []) :
    splitOnSlash (List.intercalate ['/'] segs) = segs := by
  induction segs with
  | nil => exact absurd rfl hne
  | cons x rest ih =>
    cases rest with
    | nil =>
      rw [intercalate_single]
      exact splitOnSlash_of_no_slash (h x (by simp))
    | cons y rest' =>
      rw [intercalate_cons₂, List.append_assoc, List.singleton_append,
        splitOnSlash_append_slash _ _ (h x (by simp))]
      rw [ih (fun seg hs => h seg (List.mem_cons_of_mem _ hs)) (by simp)]

theorem strip_posixNormalize (p : Str) (hp : p ≠ [])
    (hlast : (List.intercalate ['/']
        (normSegs (!(p.head? == some '/')) [] (splitOnSlash p))).getLast? ≠ some '/') :
    stripTrailingSlashes (posixNormalize p) = dotSeg ∨
    stripTrailingSlashes (posixNormalize p) = [] ∨
    (List.intercalate ['/'] (normSegs (!(p.head? == some '/')) [] (splitOnSlash p)) ≠ [] ∧
     (stripTrailingSlashes (posixNormalize p)
        = List.intercalate ['/'] (normSegs (!(p.head? == some '/')) [] (splitOnSlash p)) ∨
      stripTrailingSlashes (posixNormalize p)
        = '/' :: List.intercalate ['/'] (normSegs (!(p.head? == some '/')) [] (splitOnSlash p)))) := by
  set body := List.intercalate ['/'] (normSegs (!(p.head? == some '/')) [] (splitOnSlash p))
    with hbodydef
  have hN : posixNormalize p =
      (if body = [] then
        (if (p.head? == some '/' : Bool) then ['/']
         else if (p.getLast? == some '/' : Bool) then '.' :: ['/'] else dotSeg)
      else
        (if (p.head? == some '/' : Bool)
          then '/' :: (if (p.getLast? == some '/' : Bool) then body ++ ['/'] else body)
          else (if (p.getLast? == some '/' : Bool) then body ++ ['/'] else body))) := by
    simp only [posixNormalize, if_neg hp]
  by_cases hbody : body = []
  · rw [hN, if_pos hbody]
    by_cases habs : (p.head? == some '/' : Bool) = true
    · rw [if_pos habs]
      right; left; decide
    · rw [if_neg habs]
      by_cases htrail : (p.getLast? == some '/' : Bool) = true
      · rw [if_pos htrail]
        left; decide
      · rw [if_neg htrail]
        left; decide
  · right; right
    refine ⟨hbody, ?_⟩
    rw [hN, if_neg hbody]
    by_cases habs : (p.head? == some '/' : Bool) = true
    · right
      rw [if_pos habs]
      by_cases htrail : (p.getLast? == some '/' : Bool) = true
      · rw [if_pos htrail]
        have : ('/' :: (body ++ ['/'])) = ('/' :: body) ++ ['/'] := by simp
        rw [this, stripTrailingSlashes_append_slash]
        apply stripTrailingSlashes_eq_self
        cases hb : body with
        | nil => exact absurd hb hbody
        | cons x xs =>
          rw [List.getLast?_cons_cons]
          rw [hb] at hlast
          cases xs with
          | nil => simpa using hlast
          | cons z zs => simpa [List.getLast?_cons_cons] using hlast
      · rw [if_neg htrail]
        apply stripTrailingSlashes_eq_self
        cases hb : body with
        | nil => exact absurd hb hbody
        | cons x xs =>
          rw [List.getLast?_cons_cons]
          rw [hb] at hlast
          cases xs with
          | nil => simpa using hlast
          | cons z zs => simpa [List.getLast?_cons_cons] using hlast
    · left
      rw [if_neg habs]
      by_cases htrail : (p.getLast? == some '/' : Bool) = true
      · rw [if_pos htrail, stripTrailingSlashes_append_slash]
        exact stripTrailingSlashes_eq_self hlast
      · rw [if_neg htrail]
        exact stripTrailingSlashes_eq_self hlast

theorem sanitize_segments (s : Str) (h : sanitizeFilePath s ≠ []) :
    ∃ segs : List Str, segs ≠ [] ∧
      (∀ seg ∈ segs, seg ≠ [] ∧ seg ≠ dotSeg ∧ '/' ∉ seg) ∧
      (sanitizeFilePath s = List.intercalate ['/'] segs ∨
       sanitizeFilePath s = '/' :: List.intercalate ['/'] segs) := by
  by_cases h1 : trimChars s = []
  · exact absurd (by simp [sanitizeFilePath, h1]) h
  set repl := (trimChars s).map (fun c => if c = '\\' then '/' else c) with hrepl
  by_cases h2 : stripTrailingSlashes (posixNormalize repl) = dotSeg ∨
      stripTrailingSlashes (posixNormalize repl) = []
  · refine absurd ?_ h
    simp only [sanitizeFilePath, if_neg h1]
    rw [if_pos h2]
  have hout : sanitizeFilePath s = stripTrailingSlashes (posixNormalize repl) := by
    simp only [sanitizeFilePath, if_neg h1]
    rw [if_neg h2]
  have hreplne : repl ≠ [] := by
    intro hx
    exact h1 (List.map_eq_nil_iff.mp (hrepl ▸ hx))
  set core := normSegs (!(repl.head? == some '/')) [] (splitOnSlash repl) with hcore
  have hcoreP : ∀ seg ∈ core, seg ≠ [] ∧ seg ≠ dotSeg ∧ '/' ∉ seg := by
    intro seg hseg
    rcases normSegs_mem_strong _ _ _ (hcore ▸ hseg) with h3 | h3 | ⟨h3, h3'⟩
    · exact absurd h3 (List.not_mem_nil seg)
    · subst h3
      exact ⟨by decide, by decide, by decide⟩
    · push_neg at h3'
      exact ⟨h3'.1, h3'.2, splitOnSlash_no_slash h3⟩
  have hlast : (List.intercalate ['/'] core).getLast? ≠ some '/' := by
    by_cases hcne : core = []
    · rw [hcne]
      simp [List.intercalate]
    · exact intercalate_getLast hcne (fun seg hs => ⟨(hcoreP seg hs).1, (hcoreP seg hs).2.2⟩)
  rcases strip_posixNormalize repl hreplne (hcore ▸ hlast) with h3 | h3 | ⟨h3, h4⟩
  · exact absurd (Or.inl h3) h2
  · exact absurd (Or.inr h3) h2
  · have hcne : core ≠ [] := by
      intro hx
      apply h3
      rw [← hcore, hx]
      simp [List.intercalate]
    exact ⟨core, hcne, hcoreP, by rw [hout, hcore]; exact h4⟩

/-- C5: path sanitization trims, converts backslashes, collapses
duplicate slashes and `.` segments, strips a trailing slash, preserves
`..` segments, and is invalid exactly on empty/whitespace input or input
normalizing to `.` or empty.  The structural conjunct states the
collapsing: splitting the output on `/` yields no `.` segment and no
empty segment (beyond the leading one of a preserved absolute path). -/
theorem sanitizeFilePath_claim :
    (sanitizeFilePath " src\\app.ts ".toList = "src/app.ts".toList) ∧
    (sanitizeFilePath "folder//sub///file.ts".toList = "folder/sub/file.ts".toList) ∧
    (sanitizeFilePath "folder/sub/".toList = "folder/sub".toList) ∧
    (sanitizeFilePath "../up/file.ts".toList = "../up/file.ts".toList) ∧
    (∀ s, trimChars s = [] → sanitizeFilePath s = []) ∧
    (∀ s, sanitizeFilePath s = [] ↔
      (trimChars s = [] ∨
        stripTrailingSlashes (posixNormalize
          ((trimChars s).map fun c => if c = '\\' then '/' else c)) = dotSeg ∨
        stripTrailingSlashes (posixNormalize
          ((trimChars s).map fun c => if c = '\\' then '/' else c)) = [])) ∧
    (∀ s, sanitizeFilePath s ≠ [] →
      ((sanitizeFilePath s).getLast? ≠ some '/' ∧
       (∀ seg ∈ splitOnSlash (sanitizeFilePath s), seg ≠ dotSeg) ∧
       (∀ seg ∈ (splitOnSlash (sanitizeFilePath s)).tail, seg ≠ []) ∧
       (strIsAbs (sanitizeFilePath s) = false →
         ∀ seg ∈ splitOnSlash (sanitizeFilePath s), seg ≠ []))) := by
  refine ⟨by decide, by decide, by decide, by decide, ?_, ?_, ?_⟩
  · intro s h1
    simp [sanitizeFilePath, h1]
  · intro s
    constructor
    · intro hzero
      by_cases h1 : trimChars s = []
      · exact Or.inl h1
      · simp only [sanitizeFilePath, if_neg h1] at hzero
        by_cases h2 : stripTrailingSlashes (posixNormalize
            ((trimChars s).map fun c => if c = '\\' then '/' else c)) = dotSeg ∨
            stripTrailingSlashes (posixNormalize
              ((trimChars s).map fun c => if c = '\\' then '/' else c)) = []
        · exact Or.inr h2
        · rw [if_neg h2] at hzero
          exact Or.inr (Or.inr hzero)
    · intro hr
      rcases hr with h1 | h2
      · simp [sanitizeFilePath, h1]
      · by_cases h1 : trimChars s = []
        · simp [sanitizeFilePath, h1]
        · simp only [sanitizeFilePath, if_neg h1]
          rw [if_pos h2]
  · intro s hne
    obtain ⟨segs, hsegne, hsegP, hform⟩ := sanitize_segments s hne
    have hslashfree : ∀ seg ∈ segs, '/' ∉ seg := fun seg hs => (hsegP seg hs).2.2
    have hsplit : splitOnSlash (List.intercalate ['/'] segs) = segs :=
      splitOnSlash_intercalate hslashfree hsegne
    have hbne : List.intercalate ['/'] segs ≠ [] := by
      cases segs with
      | nil => exact absurd rfl hsegne
      | cons x rest => exact intercalate_ne_nil x rest (hsegP x (by simp)).1
    rcases hform with hf | hf
    · refine ⟨?_, ?_, ?_, ?_⟩
      · rw [hf]
        exact intercalate_getLast hsegne (fun seg hs => ⟨(hsegP _ hs).1, (hsegP _ hs).2.2⟩)
      · rw [hf, hsplit]
        intro seg hs
        exact (hsegP _ hs).2.1
      · rw [hf, hsplit]
        intro seg hs
        exact (hsegP _ (List.mem_of_mem_tail hs)).1
      · intro _
        rw [hf, hsplit]
        intro seg hs
        exact (hsegP _ hs).1
    · have habs : splitOnSlash (sanitizeFilePath s) = [] :: segs := by
        rw [hf]
        simp [splitOnSlash, hsplit]
      refine ⟨?_, ?_, ?_, ?_⟩
      · rw [hf]
        have : ('/' :: List.intercalate ['/'] segs) = ['/'] ++ List.intercalate ['/'] segs := rfl
        rw [this, List.getLast?_append_of_ne_nil _ hbne]
        exact intercalate_getLast hsegne (fun seg hs => ⟨(hsegP _ hs).1, (hsegP _ hs).2.2⟩)
      · rw [habs]
        intro seg hs
        rcases List.mem_cons.mp hs with h1 | h1
        · rw [h1]; decide
        · exact (hsegP _ h1).2.1
      · rw [habs]
        intro seg hs
        exact (hsegP _ hs).1
      · intro hnabs
        rw [hf] at hnabs
        exact absurd hnabs (by simp [strIsAbs])

/-- C5 witness: concrete applications of `sanitizeFilePath_claim`. -/
theorem sanitizeFilePath_claim_witness :
    sanitizeFilePath "  ".toList = [] ∧
    (sanitizeFilePath "a//b/".toList).getLast? ≠ some '/' := by
  constructor
  · exact sanitizeFilePath_claim.2.2.2.2.1 "  ".toList (by decide)
  · exact (sanitizeFilePath_claim.2.2.2.2.2.2 "a//b/".toList (by decide)).1


theorem normSegs_plain (allow : Bool) (st l : List Str)
    (h : ∀ seg ∈ l, seg ≠ [] ∧ seg ≠ dotSeg ∧ seg ≠ dotDotSeg) :
    normSegs allow st l = st.reverse ++ l := by
  induction l generalizing st with
  | nil => simp [normSegs]
  | cons x rest ih =>
    obtain ⟨hx1, hx2, hx3⟩ := h x (List.mem_cons_self _ _)
    simp only [normSegs, if_neg (by tauto : ¬(x = [] ∨ x = dotSeg)), if_neg hx3]
    rw [ih (x :: st) (fun seg hs => h seg (List.mem_cons_of_mem _ hs))]
    simp

theorem dropCommon_fst_nil_iff (a b : List Str) :
    (dropCommon a b).1 = [] ↔ a <+: b := by
  induction a generalizing b with
  | nil =>
    cases b <;> simp [dropCommon]
  | cons x as ih =>
    cases b with
    | nil =>
      simp only [dropCommon]
      constructor
      · intro h; exact absurd h (by simp)
      · intro h; exact absurd (List.IsPrefix.length_le h) (by simp)
    | cons y bs =>
      by_cases hxy : x = y
      · simp only [dropCommon, if_pos hxy]
        rw [ih bs]
        subst hxy
        constructor
        · intro h
          exact List.cons_prefix_cons.mpr ⟨rfl, h⟩
        · intro h
          exact (List.cons_prefix_cons.mp h).2
      · simp only [dropCommon, if_neg hxy]
        constructor
        · intro h; exact absurd h (by simp)
        · intro h
          exact absurd (List.cons_prefix_cons.mp h).1 hxy

/-- C7: the write-target resolution throws a traversal error exactly when
the relative path computed from the root to the resolved target starts
with `..` or is absolute (string-wise, as the code checks), and any
successfully returned target lies inside the root. -/
theorem resolveWorkspaceFileUri_claim (root : List Str) (fp : Str)
    (_hroot : root ≠ []) (hplain : ∀ seg ∈ root, plainSeg seg) :
    (resolveWorkspaceFileUri root fp = .error .traversal ↔
      (sanitizeFilePath fp ≠ [] ∧ splitSegs (sanitizeFilePath fp) ≠ [] ∧
        (strStartsWithDotDot (List.intercalate ['/']
            (relSegsOf (normSegs false [] root)
              (normSegs false [] (root ++ splitSegs (sanitizeFilePath fp))))) = true ∨
         strIsAbs (List.intercalate ['/']
            (relSegsOf (normSegs false [] root)
              (normSegs false [] (root ++ splitSegs (sanitizeFilePath fp))))) = true))) ∧
    (∀ t, resolveWorkspaceFileUri root fp = .ok t → root <+: t) := by
  have hrootN : normSegs false [] root = root := by
    have := normSegs_plain false [] root
      (fun seg hs => ⟨(hplain seg hs).1, (hplain seg hs).2.1, (hplain seg hs).2.2.1⟩)
    simpa using this
  constructor
  · by_cases h1 : sanitizeFilePath fp = []
    · simp only [resolveWorkspaceFileUri, if_pos h1]
      constructor
      · intro h; exact absurd h (by simp)
      · intro ⟨ha, _⟩; exact absurd h1 ha
    · by_cases h2 : splitSegs (sanitizeFilePath fp) = []
      · simp only [resolveWorkspaceFileUri, if_neg h1, if_pos h2]
        constructor
        · intro h; exact absurd h (by simp)
        · intro ⟨_, hb, _⟩; exact absurd h2 hb
      · simp only [resolveWorkspaceFileUri, if_neg h1, if_neg h2]
        by_cases h3 : (strStartsWithDotDot (List.intercalate ['/']
            (relSegsOf (normSegs false [] root)
              (normSegs false [] (root ++ splitSegs (sanitizeFilePath fp))))) ||
            strIsAbs (List.intercalate ['/']
              (relSegsOf (normSegs false [] root)
                (normSegs false [] (root ++ splitSegs (sanitizeFilePath fp)))))) = true
        · rw [if_pos h3]
          constructor
          · intro _
            exact ⟨h1, h2, Bool.or_eq_true_iff.mp h3⟩
          · intro _
            rfl
        · rw [if_neg h3]
          constructor
          · intro h; exact absurd h (by simp)
          · intro ⟨_, _, hc⟩
            exact absurd (Bool.or_eq_true_iff.mpr hc) h3
  · intro t ht
    by_cases h1 : sanitizeFilePath fp = []
    · simp [resolveWorkspaceFileUri, if_pos h1] at ht
    · by_cases h2 : splitSegs (sanitizeFilePath fp) = []
      · simp [resolveWorkspaceFileUri, if_neg h1, if_pos h2] at ht
      · simp only [resolveWorkspaceFileUri, if_neg h1, if_neg h2] at ht
        split at ht
        · exact absurd ht (by simp)
        · next hcheck =>
          rw [hrootN] at hcheck
          have htEq : t = normSegs false [] (root ++ splitSegs (sanitizeFilePath fp)) :=
            (Except.ok.inj ht).symm
          rw [htEq, ← dropCommon_fst_nil_iff]
          by_contra hne
          apply hcheck
          apply Bool.or_eq_true_iff.mpr
          left
          simp only [relSegsOf]
          cases hd : (dropCommon root
              (normSegs false [] (root ++ splitSegs (sanitizeFilePath fp)))).1 with
          | nil => exact absurd hd hne
          | cons x xs =>
            simp only [List.length_cons, List.replicate_succ, List.cons_append]
            unfold strStartsWithDotDot
            rw [List.isPrefixOf_iff_prefix]
            cases hrest : List.replicate xs.length dotDotSeg ++ (dropCommon root
                (normSegs false [] (root ++ splitSegs (sanitizeFilePath fp)))).2 with
            | nil =>
              rw [intercalate_single]
            | cons z zs =>
              rw [intercalate_cons₂]
              rw [List.append_assoc]
              exact List.prefix_append _ _

/-- C7 witness: concrete applications of `resolveWorkspaceFileUri_claim`. -/
theorem resolveWorkspaceFileUri_claim_witness :
    resolveWorkspaceFileUri ["ws".toList] ("../up/file.ts".toList) = .error .traversal ∧
    (["ws".toList] : List Str) <+: ["ws".toList, "src".toList, "app.ts".toList] := by
  have h := resolveWorkspaceFileUri_claim ["ws".toList] ("../up/file.ts".toList)
    (by decide) (by decide)
  have h2 := resolveWorkspaceFileUri_claim ["ws".toList] ("src/app.ts".toList)
    (by decide) (by decide)
  constructor
  · exact h.1.mpr ⟨by decide, by decide, Or.inl (by decide)⟩
  · exact h2.2 ["ws".toList, "src".toList, "app.ts".toList] (by decide)

/-!
Lemmas about `trimChars`, `splitLines` and `cleanupContent` needed for
the idempotence of content normalization (C8).
-/

theorem head?_dropWhile_false {p : Char → Bool} {a : Char} :
    ∀ {l : Str}, (l.dropWhile p).head? = some a → p a = false := by
  intro l
  induction l with
  | nil => intro h; simp [List.dropWhile] at h
  | cons x rest ih =>
    intro h
    rw [List.dropWhile_cons] at h
    by_cases hx : p x = true
    · rw [if_pos hx] at h
      exact ih h
    · rw [if_neg hx] at h
      simp only [List.head?_cons, Option.some.injEq] at h
      rw [← h]
      exact Bool.eq_false_iff.mpr hx

theorem dropWhile_ne_nil_of_mem {p : Char → Bool} {a : Char} {l : Str}
    (hm : a ∈ l) (hp : p a = false) : l.dropWhile p ≠ [] := by
  induction l with
  | nil => exact absurd hm (List.not_mem_nil a)
  | cons x rest ih =>
    rw [List.dropWhile_cons]
    by_cases hx : p x = true
    · rw [if_pos hx]
      rcases List.mem_cons.mp hm with h | h
      · rw [h] at hp; rw [hp] at hx; exact absurd hx (by simp)
      · exact ih h
    · rw [if_neg hx]
      simp

theorem trim_getLast_not_ws {s : Str} {a : Char}
    (h : (trimChars s).getLast? = some a) : jsWs a = false := by
  unfold trimChars at h
  rw [List.getLast?_reverse] at h
  exact head?_dropWhile_false h

theorem trim_head_not_ws {s : Str} {a : Char}
    (h : (trimChars s).head? = some a) : jsWs a = false := by
  unfold trimChars at h
  set z := (s.dropWhile jsWs).reverse with hz
  have hsfx : z.dropWhile jsWs <:+ z := List.dropWhile_suffix jsWs
  obtain ⟨pre, hpre⟩ := hsfx
  cases hd : z.dropWhile jsWs with
  | nil => rw [hd] at h; simp at h
  | cons b t =>
    rw [hd] at h
    rw [List.head?_reverse] at h
    have h1 : (b :: t).getLast? = some a := h
    have h2 : z.getLast? = some a := by
      rw [← hpre, hd]
      rw [List.getLast?_append_of_ne_nil _ (by simp)]
      exact h1
    rw [hz, List.getLast?_reverse] at h2
    exact head?_dropWhile_false h2

theorem dropWhile_eq_self_of_head {p : Char → Bool} {l : Str}
    (h : ∀ a, l.head? = some a → p a = false) : l.dropWhile p = l := by
  cases l with
  | nil => rfl
  | cons x rest =>
    rw [List.dropWhile_cons, if_neg (by simp [h x rfl])]

theorem trimChars_eq_self {s : Str}
    (hh : ∀ a, s.head? = some a → jsWs a = false)
    (hl : ∀ a, s.getLast? = some a → jsWs a = false) : trimChars s = s := by
  unfold trimChars
  rw [dropWhile_eq_self_of_head hh]
  rw [dropWhile_eq_self_of_head (fun a ha => hl a (by rwa [← List.getLast?_reverse, List.reverse_reverse] at ha))]
  exact List.reverse_reverse s

theorem trimChars_idem (s : Str) : trimChars (trimChars s) = trimChars s :=
  trimChars_eq_self (fun _ => trim_head_not_ws) (fun _ => trim_getLast_not_ws)

theorem trimChars_append_ws {w : Char} (j : Str) (hw : jsWs w = true) :
    trimChars (j ++ [w]) = trimChars j := by
  unfold trimChars
  rw [List.dropWhile_append]
  by_cases hj : (j.dropWhile jsWs).isEmpty
  · rw [if_pos hj]
    have hjj : j.dropWhile jsWs = [] := by
      cases h : j.dropWhile jsWs with
      | nil => rfl
      | cons x xs => rw [h] at hj; simp [List.isEmpty] at hj
    rw [hjj]
    simp [List.dropWhile, hw]
  · rw [if_neg hj]
    rw [List.reverse_append]
    simp only [List.reverse_cons, List.reverse_nil, List.nil_append, List.singleton_append]
    rw [List.dropWhile_cons, if_pos hw]


theorem crPairedB_cons {c : Char} {rest : Str} :
    crPairedB (c :: rest) =
      ((decide (c ≠ '\x0d') || decide (rest.head? = some '\n')) && crPairedB rest) := rfl

theorem crPairedB_tail {c : Char} {rest : Str} (hs : crPairedB (c :: rest) = true) :
    crPairedB rest = true := by
  rw [crPairedB_cons, Bool.and_eq_true] at hs
  exact hs.2

theorem crPairedB_head {c : Char} {rest : Str} (hs : crPairedB (c :: rest) = true)
    (hc : c = '\x0d') : rest.head? = some '\n' := by
  rw [crPairedB_cons, Bool.and_eq_true] at hs
  rcases Bool.or_eq_true_iff.mp hs.1 with h | h
  · exact absurd hc (by simpa using h)
  · exact of_decide_eq_true h

theorem splitLines_ne_nil (s : Str) : splitLines s ≠ [] := by
  induction s using splitLines.induct with
  | case1 => simp [splitLines]
  | case2 rest ih => simp [splitLines]
  | case3 rest ih => simp [splitLines]
  | case4 c rest h1 h2 ih =>
    simp only [splitLines]
    cases h : splitLines rest with
    | nil => exact absurd h ih
    | cons a l => simp [List.modifyHead]

theorem mem_splitLines_chars {l s : Str} {c : Char}
    (hl : l ∈ splitLines s) (hc : c ∈ l) : c ∈ s := by
  induction s using splitLines.induct generalizing l with
  | case1 =>
    simp [splitLines] at hl
    subst hl
    exact absurd hc (List.not_mem_nil c)
  | case2 rest ih =>
    simp only [splitLines] at hl
    rcases List.mem_cons.mp hl with h | h
    · subst h; exact absurd hc (List.not_mem_nil c)
    · exact List.mem_cons_of_mem _ (List.mem_cons_of_mem _ (ih h hc))
  | case3 rest ih =>
    simp only [splitLines] at hl
    rcases List.mem_cons.mp hl with h | h
    · subst h; exact absurd hc (List.not_mem_nil c)
    · exact List.mem_cons_of_mem _ (ih h hc)
  | case4 a rest h1 h2 ih =>
    simp only [splitLines] at hl
    cases hsp : splitLines rest with
    | nil => exact absurd hsp (splitLines_ne_nil rest)
    | cons b t =>
      rw [hsp] at hl
      simp only [List.modifyHead] at hl
      rcases List.mem_cons.mp hl with h | h
      · subst h
        rcases List.mem_cons.mp hc with h3 | h3
        · rw [h3]; exact List.mem_cons_self a rest
        · refine List.mem_cons_of_mem a (ih ?_ h3)
          rw [hsp]; exact List.mem_cons_self b t
      · refine List.mem_cons_of_mem a (ih ?_ hc)
        rw [hsp]; exact List.mem_cons_of_mem b h

theorem splitLines_no_lf {l s : Str} (hl : l ∈ splitLines s) : '\n' ∉ l := by
  induction s using splitLines.induct generalizing l with
  | case1 =>
    simp [splitLines] at hl
    subst hl
    exact List.not_mem_nil _
  | case2 rest ih =>
    simp only [splitLines] at hl
    rcases List.mem_cons.mp hl with h | h
    · subst h; exact List.not_mem_nil _
    · exact ih h
  | case3 rest ih =>
    simp only [splitLines] at hl
    rcases List.mem_cons.mp hl with h | h
    · subst h; exact List.not_mem_nil _
    · exact ih h
  | case4 a rest h1 h2 ih =>
    simp only [splitLines] at hl
    cases hsp : splitLines rest with
    | nil => exact absurd hsp (splitLines_ne_nil rest)
    | cons b t =>
      rw [hsp] at hl
      simp only [List.modifyHead] at hl
      rcases List.mem_cons.mp hl with h | h
      · subst h
        intro hmem
        rcases List.mem_cons.mp hmem with h3 | h3
        · exact h2 h3.symm
        · exact ih (by rw [hsp]; exact List.mem_cons_self b t) h3
      · exact ih (by rw [hsp]; exact List.mem_cons_of_mem b h)

theorem splitLines_crFree {l s : Str} (hs : crPairedB s = true)
    (hl : l ∈ splitLines s) : '\x0d' ∉ l := by
  induction s using splitLines.induct generalizing l with
  | case1 =>
    simp [splitLines] at hl
    subst hl
    exact List.not_mem_nil _
  | case2 rest ih =>
    simp only [splitLines] at hl
    have hs2 : crPairedB rest = true := crPairedB_tail (crPairedB_tail hs)
    rcases List.mem_cons.mp hl with h | h
    · subst h; exact List.not_mem_nil _
    · exact ih hs2 h
  | case3 rest ih =>
    simp only [splitLines] at hl
    have hs2 : crPairedB rest = true := crPairedB_tail hs
    rcases List.mem_cons.mp hl with h | h
    · subst h; exact List.not_mem_nil _
    · exact ih hs2 h
  | case4 a rest h1 h2 ih =>
    have hs2 : crPairedB rest = true := crPairedB_tail hs
    have ha : a ≠ '\x0d' := by
      intro haa
      have hh := crPairedB_head hs haa
      cases rest with
      | nil => simp at hh
      | cons y ys =>
        simp only [List.head?_cons, Option.some.injEq] at hh
        exact h1 ys haa (by rw [hh])
    simp only [splitLines] at hl
    cases hsp : splitLines rest with
    | nil => exact absurd hsp (splitLines_ne_nil rest)
    | cons b t =>
      rw [hsp] at hl
      simp only [List.modifyHead] at hl
      rcases List.mem_cons.mp hl with h | h
      · subst h
        intro hmem
        rcases List.mem_cons.mp hmem with h3 | h3
        · exact ha h3.symm
        · exact ih hs2 (by rw [hsp]; exact List.mem_cons_self b t) h3
      · exact ih hs2 (by rw [hsp]; exact List.mem_cons_of_mem b h)

theorem intercalate_splitLines {s : Str} (hs : '\x0d' ∉ s) :
    List.intercalate ['\n'] (splitLines s) = s := by
  induction s using splitLines.induct with
  | case1 => simp [splitLines, List.intercalate]
  | case2 rest ih => exact absurd (List.mem_cons_self _ _) hs
  | case3 rest ih =>
    have hs2 : '\x0d' ∉ rest := fun h => hs (List.mem_cons_of_mem _ h)
    simp only [splitLines]
    cases hsp : splitLines rest with
    | nil => exact absurd hsp (splitLines_ne_nil rest)
    | cons b t =>
      rw [intercalate_cons₂]
      rw [← hsp, ih hs2]
      simp
  | case4 c rest h1 h2 ih =>
    have hs2 : '\x0d' ∉ rest := fun h => hs (List.mem_cons_of_mem _ h)
    simp only [splitLines]
    cases hsp : splitLines rest with
    | nil => exact absurd hsp (splitLines_ne_nil rest)
    | cons b t =>
      simp only [List.modifyHead]
      have hjoin : List.intercalate ['\n'] ((c :: b) :: t)
          = c :: List.intercalate ['\n'] (b :: t) := by
        cases t with
        | nil => rw [intercalate_single, intercalate_single]
        | cons u us =>
          rw [intercalate_cons₂, intercalate_cons₂]
          simp
      rw [hjoin, ← hsp, ih hs2]

theorem splitLines_cons_head {a : Char} {rest : Str}
    (h1 : a ≠ '\n') (h2 : a ≠ '\x0d') :
    ∃ l t, splitLines (a :: rest) = (a :: l) :: t ∧ splitLines rest = l :: t := by
  have heq : splitLines (a :: rest) = (splitLines rest).modifyHead (a :: ·) := by
    rw [splitLines.eq_def]
    split
    · rename_i heqq; exact absurd heqq (by simp)
    · rename_i heqq
      exact absurd (List.head_eq_of_cons_eq heqq) h2
    · rename_i heqq
      exact absurd (List.head_eq_of_cons_eq heqq) h1
    · rename_i c' rest' hg1 hg2 heqq
      rw [List.head_eq_of_cons_eq heqq, List.tail_eq_of_cons_eq heqq]
  cases hsp : splitLines rest with
  | nil => exact absurd hsp (splitLines_ne_nil rest)
  | cons b t =>
    refine ⟨b, t, ?_, rfl⟩
    rw [heq, hsp]
    rfl

theorem modifyHead_append {f : Str → Str} {L : List Str} (x : Str) (hL : L ≠ []) :
    (L ++ [x]).modifyHead f = L.modifyHead f ++ [x] := by
  cases L with
  | nil => exact absurd rfl hL
  | cons a t => simp [List.modifyHead]

theorem splitLines_append_lf {a : Str} (ha : '\x0d' ∉ a) :
    splitLines (a ++ ['\n']) = splitLines a ++ [[]] := by
  induction a using splitLines.induct with
  | case1 => simp [splitLines]
  | case2 rest ih => exact absurd (List.mem_cons_self _ _) ha
  | case3 rest ih =>
    have ha2 : '\x0d' ∉ rest := fun h => ha (List.mem_cons_of_mem _ h)
    simp only [List.cons_append, splitLines, List.append_eq, ih ha2]
  | case4 c rest h1 h2 ih =>
    have ha2 : '\x0d' ∉ rest := fun h => ha (List.mem_cons_of_mem _ h)
    have hc2 : c ≠ '\x0d' := fun h => ha (by rw [← h] at *; exact List.mem_cons_self c rest)
    have hc1 : c ≠ '\n' := fun h => h2 h
    obtain ⟨l, t, hsp, hsp2⟩ := @splitLines_cons_head _ (rest ++ ['\n']) hc1 hc2
    rw [List.cons_append] at *
    rw [hsp]
    obtain ⟨l', t', hsp3, hsp4⟩ := @splitLines_cons_head _ rest hc1 hc2
    rw [hsp3]
    rw [ih ha2, hsp4] at hsp2
    cases t' with
    | nil =>
      simp only [List.cons_append, List.nil_append] at hsp2
      have he1 : l' = l := List.head_eq_of_cons_eq hsp2
      have he2 : [([] : Str)] = t := List.tail_eq_of_cons_eq hsp2
      rw [← he1, ← he2]
      simp
    | cons u us =>
      have hl : l' = l := List.head_eq_of_cons_eq hsp2
      have ht : u :: (us ++ [[]]) = t := by
        simpa using List.tail_eq_of_cons_eq hsp2
      rw [← hl, ← ht]
      simp

theorem replCrlfLf_id {z : Str} (hz : '\x0d' ∉ z) : replCrlfLf z = z := by
  induction z using replCrlfLf.induct with
  | case1 => rfl
  | case2 rest ih => exact absurd (List.mem_cons_self _ _) hz
  | case3 c rest hne ih =>
    have hz2 : '\x0d' ∉ rest := fun h => hz (List.mem_cons_of_mem _ h)
    have hc : c ≠ '\x0d' := fun h => hz (by rw [← h] at *; exact List.mem_cons_self c rest)
    rw [replCrlfLf.eq_3 c rest (fun _ hcr _ => hc hcr), ih hz2]

theorem splitLines_crlfExpand {z : Str} (hz : '\x0d' ∉ z) :
    splitLines (crlfExpand z) = splitLines z := by
  induction z using crlfExpand.induct with
  | case1 => rfl
  | case2 rest ih =>
    have hz2 : '\x0d' ∉ rest := fun h => hz (List.mem_cons_of_mem _ h)
    simp only [crlfExpand, splitLines, ih hz2]
  | case3 c rest hne ih =>
    have hz2 : '\x0d' ∉ rest := fun h => hz (List.mem_cons_of_mem _ h)
    have hc : c ≠ '\x0d' := fun h => hz (by rw [← h] at *; exact List.mem_cons_self c rest)
    have hc1 : c ≠ '\n' := fun h => hne h
    have he : crlfExpand (c :: rest) = c :: crlfExpand rest :=
      crlfExpand.eq_3 c rest (fun hcl => hc1 hcl)
    rw [he]
    obtain ⟨l, t, hsp, hsp2⟩ := @splitLines_cons_head _ (crlfExpand rest) hc1 hc
    obtain ⟨l', t', hsp3, hsp4⟩ := @splitLines_cons_head _ rest hc1 hc
    rw [hsp, hsp3]
    rw [ih hz2, hsp4] at hsp2
    rw [List.head_eq_of_cons_eq hsp2, List.tail_eq_of_cons_eq hsp2]

theorem intercalate_append_blank {D : List Str} (hD : D ≠ []) :
    List.intercalate ['\n'] (D ++ [[]]) = List.intercalate ['\n'] D ++ ['\n'] := by
  induction D with
  | nil => exact absurd rfl hD
  | cons x rest ih =>
    cases rest with
    | nil =>
      show List.intercalate ['\n'] [x, []] = List.intercalate ['\n'] [x] ++ ['\n']
      rw [intercalate_cons₂, intercalate_single, intercalate_single]
      simp
    | cons y rest' =>
      show List.intercalate ['\n'] (x :: ((y :: rest') ++ [[]]))
          = List.intercalate ['\n'] (x :: y :: rest') ++ ['\n']
      have h2 : (y :: rest') ++ [[]] = y :: (rest' ++ [[]]) := by simp
      rw [h2, intercalate_cons₂, ← h2, ih (by simp), intercalate_cons₂]
      simp

theorem foldl_min_zero (ns : List Nat) : ns.foldl Nat.min 0 = 0 := by
  induction ns with
  | nil => rfl
  | cons n rest ih =>
    rw [List.foldl_cons, show Nat.min 0 n = 0 by simp [Nat.min_def]]
    exact ih

theorem trimChars_ne_nil_of_head {a : Char} (l : Str) (ha : jsWs a = false) :
    trimChars (a :: l) ≠ [] := by
  have hinner : List.dropWhile jsWs (a :: l) = a :: l := by
    rw [List.dropWhile_cons, if_neg (by simp [ha])]
  unfold trimChars
  rw [hinner]
  intro h
  rw [List.reverse_eq_nil_iff] at h
  exact dropWhile_ne_nil_of_mem (by simp : a ∈ (a :: l).reverse) ha h

theorem cleanupLines_append_blank {L : List Str} (hL : L ≠ []) :
    cleanupLines (L ++ [[]]) = cleanupLines L := by
  have hp : (fun l => !(trimChars l).isEmpty) ([] : Str) = false := by decide
  have hfilter : (L ++ [[]]).filter (fun l => !(trimChars l).isEmpty)
      = L.filter (fun l => !(trimChars l).isEmpty) := by
    rw [List.filter_append]
    simp [List.filter, hp]
  simp only [cleanupLines, hfilter]
  by_cases hne : (L.filter (fun l => !(trimChars l).isEmpty)).isEmpty
  · rw [if_pos hne, if_pos hne]
  · rw [if_neg hne, if_neg hne]
    by_cases hmi : 0 < minIndent (L.filter (fun l => !(trimChars l).isEmpty))
    · rw [if_pos hmi, if_pos hmi, List.map_append]
      simp only [List.map_cons, List.map_nil, List.drop_nil]
      rw [intercalate_append_blank (by simpa using hL)]
      exact trimChars_append_ws _ (by decide)
    · rw [if_neg hmi, if_neg hmi]
      rw [intercalate_append_blank hL]
      exact trimChars_append_ws _ (by decide)

theorem cleanup_append_lf {a : Str} (ha : '\x0d' ∉ a) :
    cleanupContent (a ++ ['\n']) = cleanupContent a := by
  unfold cleanupContent
  rw [splitLines_append_lf ha]
  exact cleanupLines_append_blank (splitLines_ne_nil a)

theorem cleanup_crFree {x : Str} (hx : crPairedB x = true) :
    '\x0d' ∉ cleanupContent x := by
  simp only [cleanupContent, cleanupLines]
  split
  · exact List.not_mem_nil _
  · intro hmem
    have h1 := mem_trimChars hmem
    rcases mem_intercalate h1 with h2 | ⟨dl, hdl, hdl2⟩
    · simp at h2
    · split at hdl
      · rcases List.mem_map.mp hdl with ⟨l, hl, hld⟩
        rw [← hld] at hdl2
        exact splitLines_crFree hx hl (List.drop_subset _ _ hdl2)
      · exact splitLines_crFree hx hdl hdl2

theorem trim_cleanupLines (L : List Str) :
    trimChars (cleanupLines L) = cleanupLines L := by
  simp only [cleanupLines]
  split
  · rfl
  · exact trimChars_idem _

theorem cleanupLines_head_not_ws {L : List Str} {a : Char}
    (h : (cleanupLines L).head? = some a) : jsWs a = false := by
  simp only [cleanupLines] at h
  split at h
  · simp at h
  · exact trim_head_not_ws h

theorem cleanup_fixpoint {c : Str} (hcr : '\x0d' ∉ c)
    (htrim : trimChars c = c)
    (hhead : ∀ a, c.head? = some a → jsWs a = false) :
    cleanupContent c = c := by
  cases c with
  | nil => decide
  | cons c0 cs =>
    have h0 : jsWs c0 = false := hhead c0 rfl
    have h0n : c0 ≠ '\n' := fun h => by rw [h] at h0; exact absurd h0 (by decide)
    have h0r : c0 ≠ '\x0d' := fun h => hcr (by rw [← h] at *; exact List.mem_cons_self c0 cs)
    obtain ⟨l, t, hsp, _⟩ := @splitLines_cons_head _ cs h0n h0r
    simp only [cleanupContent, cleanupLines]
    rw [hsp]
    have hfl : ((c0 :: l) :: t).filter (fun l => !(trimChars l).isEmpty)
        = (c0 :: l) :: t.filter (fun l => !(trimChars l).isEmpty) := by
      rw [List.filter_cons]
      rw [if_pos (by
        cases hh : trimChars (c0 :: l) with
        | nil => exact absurd hh (trimChars_ne_nil_of_head l h0)
        | cons u v => simp [List.isEmpty])]
    rw [hfl]
    rw [if_neg (by simp [List.isEmpty])]
    have hmi : minIndent ((c0 :: l) :: t.filter (fun l => !(trimChars l).isEmpty)) = 0 := by
      unfold minIndent
      simp only [List.map_cons]
      have hlw : leadingWsLen (c0 :: l) = 0 := by
        unfold leadingWsLen
        rw [List.takeWhile_cons, if_neg (by simp [h0])]
        rfl
      rw [hlw]
      exact foldl_min_zero _
    rw [hmi]
    rw [if_neg (by simp)]
    rw [← hsp, intercalate_splitLines hcr]
    exact htrim

theorem applyTrailingStyle_cases (ex : Option Str) (c : Str) :
    applyTrailingStyle ex c = c ∨ applyTrailingStyle ex c = c ++ ['\n'] ∨
    applyTrailingStyle ex c = c ++ ['\n', '\n'] := by
  cases ex with
  | none =>
    simp only [applyTrailingStyle]
    split_ifs <;> simp
  | some e =>
    simp only [applyTrailingStyle]
    by_cases h1 : (endsWith "\r\n\r\n".toList e || endsWith "\n\n".toList e) = true
    · rw [if_pos h1]
      simp
    · rw [if_neg h1]
      by_cases h2 : (endsWith "\r\n".toList e || endsWith "\n".toList e) = true
      · rw [if_pos h2]
        simp
      · rw [if_neg h2]
        simp

theorem cleanup_applyEol_suffix (eol : Eol) (c suf : Str)
    (hcr : '\x0d' ∉ c)
    (hsuf : suf = [] ∨ suf = ['\n'] ∨ suf = ['\n', '\n'])
    (htrim : trimChars c = c)
    (hhead : ∀ a, c.head? = some a → jsWs a = false) :
    cleanupContent (applyEol eol (c ++ suf)) = c := by
  have hcrs : '\x0d' ∉ c ++ suf := by
    intro h
    rcases List.mem_append.mp h with h1 | h1
    · exact hcr h1
    · rcases hsuf with h2 | h2 | h2 <;> (rw [h2] at h1 <;> simp at h1)
  have hclean : cleanupContent (c ++ suf) = c := by
    rcases hsuf with h2 | h2 | h2
    · rw [h2, List.append_nil]
      exact cleanup_fixpoint hcr htrim hhead
    · rw [h2, cleanup_append_lf hcr]
      exact cleanup_fixpoint hcr htrim hhead
    · rw [h2]
      have hsplit2 : c ++ ['\n', '\n'] = (c ++ ['\n']) ++ ['\n'] := by simp
      have hcr1 : '\x0d' ∉ c ++ ['\n'] := by
        intro h
        rcases List.mem_append.mp h with h1 | h1
        · exact hcr h1
        · simp at h1
      rw [hsplit2, cleanup_append_lf hcr1, cleanup_append_lf hcr]
      exact cleanup_fixpoint hcr htrim hhead
  cases eol with
  | lf =>
    show cleanupContent (replCrlfLf (c ++ suf)) = c
    rw [replCrlfLf_id hcrs]
    exact hclean
  | crlf =>
    show cleanupContent (crlfExpand (replCrlfLf (c ++ suf))) = c
    rw [replCrlfLf_id hcrs]
    unfold cleanupContent
    rw [splitLines_crlfExpand hcrs]
    exact hclean

/-- C8 amended: the full content-normalization step is idempotent for
every input in which each `\r` is part of a `\r\n` pair (in particular
for all LF-only or CRLF-only inputs), for every target-file state and
EOL setting.  A widow `\r` breaks idempotence — see the
counterexample. -/
theorem normContent_idem (ex : Option Str) (eol : Eol) (x : Str)
    (hx : crPairedB x = true) :
    normContent ex eol (normContent ex eol x) = normContent ex eol x := by
  have hcr : '\x0d' ∉ cleanupContent x := cleanup_crFree hx
  have htrim : trimChars (cleanupContent x) = cleanupContent x := trim_cleanupLines _
  have hhead : ∀ a, (cleanupContent x).head? = some a → jsWs a = false :=
    fun _ ha => cleanupLines_head_not_ws ha
  simp only [normContent]
  rcases applyTrailingStyle_cases ex (cleanupContent x) with hs | hs | hs
  · have hs' : applyTrailingStyle ex (cleanupContent x) = cleanupContent x ++ [] := by
      rw [hs, List.append_nil]
    rw [hs', cleanup_applyEol_suffix eol _ [] hcr (Or.inl rfl) htrim hhead, hs']
  · rw [hs, cleanup_applyEol_suffix eol _ ['\n'] hcr (Or.inr (Or.inl rfl)) htrim hhead, hs]
  · rw [hs, cleanup_applyEol_suffix eol _ ['\n', '\n'] hcr (Or.inr (Or.inr rfl)) htrim hhead,
      hs]

/-- C8 witness: concrete application of `normContent_idem`. -/
theorem normContent_idem_witness :
    normContent (some ("z\n".toList)) .crlf
        (normContent (some ("z\n".toList)) .crlf ("  a\r\n    b".toList))
      = normContent (some ("z\n".toList)) .crlf ("  a\r\n    b".toList) :=
  normContent_idem _ _ _ (by decide)

/-- C8 counterexample: content normalization is NOT idempotent on the
input `a\r\r\r\nb` (new-file state, LF setting): the first pass yields
`a\r\nb\n` (the dedent/join step re-forms a `\r\n` out of a widow `\r`),
and the second pass collapses that pair, yielding `a\nb\n`. -/
theorem normContent_not_idem_cex :
    normContent none .lf (normContent none .lf ("a\r\r\r\nb".toList)) ≠
      normContent none .lf ("a\r\r\r\nb".toList) := by decide


theorem occursInB_iff {pat s : Str} :
    occursInB pat s = true ↔ ∃ j, pat.isPrefixOf (s.drop j) = true := by
  unfold occursInB
  rw [List.any_eq_true]
  constructor
  · intro ⟨j, _, hj⟩
    exact ⟨j, hj⟩
  · intro ⟨j, hj⟩
    by_cases hjs : j ≤ s.length
    · exact ⟨j, List.mem_range.mpr (by omega), hj⟩
    · have hdrop : s.drop j = [] := List.drop_eq_nil_of_le (by omega)
      rw [hdrop] at hj
      cases pat with
      | nil => exact ⟨0, List.mem_range.mpr (by omega), by simp [List.isPrefixOf]⟩
      | cons a t => simp [List.isPrefixOf] at hj

theorem litTok_append (pat r : Str) : litTok pat (pat ++ r) = some r := by
  unfold litTok
  rw [if_pos (by rw [List.isPrefixOf_iff_prefix]; exact List.prefix_append pat r)]
  rw [List.drop_left]

theorem litTok_some {pat s r : Str} (h : litTok pat s = some r) : s = pat ++ r := by
  unfold litTok at h
  split at h
  · next hp =>
    rw [List.isPrefixOf_iff_prefix] at hp
    obtain ⟨u, hu⟩ := hp
    rw [← hu] at h ⊢
    rw [List.drop_left] at h
    rw [Option.some.inj h]
  · exact absurd h (by simp)

theorem litTok_none {pat s : Str} (h : pat.isPrefixOf s = false) : litTok pat s = none := by
  unfold litTok
  rw [if_neg (by simp [h])]

theorem skipWs_cons_ws {c : Char} {s : Str} (h : jsWs c = true) :
    skipWs (c :: s) = skipWs s := by
  unfold skipWs
  rw [List.dropWhile_cons, if_pos (by simp [h])]

theorem skipWs_cons_not {c : Char} {s : Str} (h : jsWs c = false) :
    skipWs (c :: s) = c :: s := by
  unfold skipWs
  rw [List.dropWhile_cons, if_neg (by simp [h])]

theorem skipWs_ws_append {w : Str} {b : Char} {bs : Str}
    (hw : ∀ a ∈ w, jsWs a = true) (hb : jsWs b = false) :
    skipWs (w ++ b :: bs) = b :: bs := by
  induction w with
  | nil => exact skipWs_cons_not hb
  | cons x xs ih =>
    rw [List.cons_append, skipWs_cons_ws (hw x (List.mem_cons_self _ _))]
    exact ih (fun a ha => hw a (List.mem_cons_of_mem x ha))

theorem skipWs_decomp (s : Str) :
    ∃ w, (∀ a ∈ w, jsWs a = true) ∧ s = w ++ skipWs s := by
  refine ⟨s.takeWhile jsWs, ?_, ?_⟩
  · intro a ha
    exact List.mem_takeWhile_imp ha
  · rw [skipWs]
    exact (List.takeWhile_append_dropWhile jsWs s).symm

theorem matchClose_some_iff {p s r : Str} :
    matchClose p s = some r ↔
      ∃ w1 w2 : Str, (∀ a ∈ w1, jsWs a = true) ∧ (∀ a ∈ w2, jsWs a = true) ∧
        s = w1 ++ fenceTok ++ w2 ++ endTagOf p ++ r := by
  constructor
  · intro h
    unfold matchClose at h
    cases h1 : litTok fenceTok (skipWs s) with
    | none => rw [h1] at h; exact absurd h (by simp)
    | some s1 =>
      rw [h1] at h
      simp only [Option.some_bind] at h
      obtain ⟨w1, hw1, hs⟩ := skipWs_decomp s
      obtain ⟨w2, hw2, hs1⟩ := skipWs_decomp s1
      have hfence := litTok_some h1
      have hend := litTok_some h
      refine ⟨w1, w2, hw1, hw2, ?_⟩
      rw [hs, hfence, hs1, hend]
      simp
  · intro ⟨w1, w2, hw1, hw2, hs⟩
    unfold matchClose
    rw [hs]
    have h1 : skipWs (w1 ++ fenceTok ++ w2 ++ endTagOf p ++ r)
        = fenceTok ++ (w2 ++ endTagOf p ++ r) := by
      have : w1 ++ fenceTok ++ w2 ++ endTagOf p ++ r
          = w1 ++ '`' :: ("``".toList ++ w2 ++ endTagOf p ++ r) := by
        simp [fenceTok]
      rw [this, skipWs_ws_append hw1 (by decide)]
      simp [fenceTok]
    rw [h1, litTok_append]
    simp only [Option.some_bind]
    have h2 : skipWs (w2 ++ endTagOf p ++ r) = endTagOf p ++ r := by
      have : w2 ++ endTagOf p ++ r = w2 ++ '<' :: ("!-- FILE_END: ".toList ++ p ++ " -->".toList ++ r) := by
        simp [endTagOf]
      rw [this, skipWs_ws_append hw2 (by decide)]
      simp [endTagOf]
    rw [h2, litTok_append]


theorem fenceTok_eq : fenceTok = btChar :: btChar :: btChar :: [] := by decide

theorem sepStr_eq : sepStr = '\n' :: btChar :: btChar :: btChar :: '\n' :: [] := by decide

theorem noTrailWs_spec {c : Str} (h : noTrailWs c = true) :
    ∀ a, c.getLast? = some a → jsWs a = false := by
  intro a ha
  unfold noTrailWs at h
  rw [ha] at h
  simp [Option.all] at h
  exact h

theorem occursInB_cons {pat : Str} {a : Char} {s : Str}
    (h : occursInB pat (a :: s) = false) : occursInB pat s = false := by
  by_cases hs : occursInB pat s = true
  · obtain ⟨j, hj⟩ := occursInB_iff.mp hs
    have : occursInB pat (a :: s) = true :=
      occursInB_iff.mpr ⟨j + 1, by rw [List.drop_succ_cons]; exact hj⟩
    rw [this] at h
    exact absurd h (by simp)
  · exact Bool.not_eq_true _ ▸ hs

theorem occursInB_suffix {pat t s : Str} (hts : t <:+ s)
    (h : occursInB pat s = false) : occursInB pat t = false := by
  by_cases ht : occursInB pat t = true
  · obtain ⟨j, hj⟩ := occursInB_iff.mp ht
    obtain ⟨w, hw⟩ := hts
    have hdrop : s.drop (w.length + j) = t.drop j := by
      rw [← hw, ← List.drop_drop, List.drop_left]
    have : occursInB pat s = true := occursInB_iff.mpr ⟨w.length + j, by rw [hdrop]; exact hj⟩
    rw [this] at h
    exact absurd h (by simp)
  · exact Bool.not_eq_true _ ▸ ht

theorem skipWs_suffix (s : Str) : skipWs s <:+ s := List.dropWhile_suffix jsWs

theorem litTok_suffix {pat s r : Str} (h : litTok pat s = some r) : r <:+ s := by
  rw [litTok_some h]
  exact ⟨pat, rfl⟩

theorem fenceLineRest_suffix {s r : Str} (h : fenceLineRest s = some r) : r <:+ s := by
  unfold fenceLineRest at h
  have hdw : s.dropWhile (fun c => !(c == '\n' || c == '\x0d')) <:+ s :=
    List.dropWhile_suffix _
  split at h
  · next heq =>
    obtain rfl := Option.some.inj h
    exact List.IsSuffix.trans ⟨['\x0d', '\n'], heq.symm⟩ hdw
  · next heq =>
    obtain rfl := Option.some.inj h
    exact List.IsSuffix.trans ⟨['\n'], heq.symm⟩ hdw
  · exact absurd h (by simp)

theorem isPrefixOf_append_left {pat l r : Str} (h : pat.length ≤ l.length) :
    pat.isPrefixOf (l ++ r) = pat.isPrefixOf l := by
  by_cases hp : pat.isPrefixOf l = true
  · rw [hp]
    rw [List.isPrefixOf_iff_prefix] at hp ⊢
    exact hp.trans (List.prefix_append l r)
  · rw [Bool.not_eq_true] at hp
    rw [hp]
    by_cases hq : pat.isPrefixOf (l ++ r) = true
    · exfalso
      rw [List.isPrefixOf_iff_prefix, List.prefix_iff_eq_take,
        List.take_append_of_le_length h] at hq
      have : pat.isPrefixOf l = true := by
        rw [List.isPrefixOf_iff_prefix, List.prefix_iff_eq_take]
        exact hq
      rw [this] at hp
      exact absurd hp (by simp)
    · rw [Bool.not_eq_true] at hq
      rw [hq]

theorem ws_fence_ws_eq {c w1 w2 : Str}
    (hw1 : ∀ a ∈ w1, jsWs a = true) (hw2 : ∀ a ∈ w2, jsWs a = true)
    (h : c ++ sepStr = w1 ++ fenceTok ++ w2) :
    ∀ a ∈ c, jsWs a = true := by
  by_cases hc1 : c.length ≤ w1.length
  · intro a ha
    have htake := congrArg (List.take c.length) h
    rw [List.take_left, List.append_assoc, List.take_append_of_le_length hc1] at htake
    exact hw1 a (List.take_subset _ _ (htake ▸ ha))
  · by_cases hc2 : w1.length + 3 ≤ c.length
    · exfalso
      have hl : (c ++ sepStr).drop (w1.length + 3) = c.drop (w1.length + 3) ++ sepStr :=
        List.drop_append_of_le_length hc2
      have hr : (w1 ++ fenceTok ++ w2).drop (w1.length + 3) = w2 := by
        have h3 : w1.length + 3 = (w1 ++ fenceTok).length := by simp [fenceTok]
        rw [h3, List.drop_left]
      have hkey : c.drop (w1.length + 3) ++ sepStr = w2 := by rw [← hl, h, hr]
      have hg : btChar ∈ c.drop (w1.length + 3) ++ sepStr :=
        List.mem_append_right _ (by rw [sepStr_eq]; simp)
      rw [hkey] at hg
      exact absurd (hw2 _ hg) (by decide)
    · exfalso
      push_neg at hc1 hc2
      have hdrop : c.drop w1.length ++ sepStr = fenceTok ++ w2 := by
        have hl : (c ++ sepStr).drop w1.length = c.drop w1.length ++ sepStr :=
          List.drop_append_of_le_length (by omega)
        have hr : (w1 ++ fenceTok ++ w2).drop w1.length = fenceTok ++ w2 := by
          rw [List.append_assoc, List.drop_left]
        rw [← hl, h, hr]
      have hdl : (c.drop w1.length).length = c.length - w1.length := by simp
      rcases (by omega : c.length - w1.length = 1 ∨ c.length - w1.length = 2) with hd | hd
      · obtain ⟨x, hx⟩ := List.length_eq_one.mp (by rw [hdl, hd])
        rw [hx, sepStr_eq, fenceTok_eq] at hdrop
        simp only [List.cons_append, List.singleton_append, List.nil_append, List.cons.injEq] at hdrop
        exact absurd hdrop.2.1 (by decide)
      · obtain ⟨x, y, hxy⟩ := List.length_eq_two.mp (by rw [hdl, hd])
        rw [hxy, sepStr_eq, fenceTok_eq] at hdrop
        simp only [List.cons_append, List.singleton_append, List.nil_append, List.cons.injEq] at hdrop
        exact absurd hdrop.2.2.1 (by decide)

theorem endTagOf_cons (p : Str) :
    endTagOf p = '<' :: ("!-- FILE_END: ".toList ++ p ++ " -->".toList) := by
  unfold endTagOf
  rw [show ("<!-- FILE_END: ".toList : Str) = '<' :: "!-- FILE_END: ".toList from by decide]
  simp [List.cons_append, List.append_assoc]

/-- Inside the content region of a block — strictly before the real
separator — the closing sequence cannot match: any purported match
either places the end tag inside the content (excluded), aligns with the
real close (forcing the remaining content to be all-whitespace, excluded
by the trailing character), or overlaps the real end tag (impossible
since `<` occurs only at its head). -/
theorem matchClose_none_of {p c R : Str}
    (hc : c ≠ [])
    (hlast : ∀ a, c.getLast? = some a → jsWs a = false)
    (hplt : '<' ∉ p)
    (hnoend : occursInB (endTagOf p) (c ++ sepStr) = false) :
    matchClose p (c ++ sepStr ++ (endTagOf p ++ R)) = none := by
  cases hm : matchClose p (c ++ sepStr ++ (endTagOf p ++ R)) with
  | none => rfl
  | some r =>
    exfalso
    obtain ⟨w1, w2, hw1, hw2, hs⟩ := matchClose_some_iff.mp hm
    have hs2 := hs
    rw [List.append_assoc (w1 ++ fenceTok ++ w2) (endTagOf p) r] at hs2
    set E := endTagOf p with hE
    set Z := c ++ sepStr with hZ
    set W := w1 ++ fenceTok ++ w2 with hW
    have hEhead : ∀ t : Str, (E ++ t)[0]? = some '<' := by
      intro t
      rw [hE, endTagOf_cons, List.cons_append]
      exact List.getElem?_cons_zero
    have hlhsZ : (Z ++ (E ++ R))[Z.length]? = some '<' := by
      rw [List.getElem?_append_right (le_refl Z.length)]
      simp only [Nat.sub_self]
      exact hEhead R
    rcases lt_trichotomy Z.length W.length with hlt | heq | hgt
    · rw [hs2, List.getElem?_append_left hlt] at hlhsZ
      have hmem : '<' ∈ W := List.getElem?_mem hlhsZ
      rw [hW] at hmem
      rcases List.mem_append.mp hmem with hmem' | hmem'
      · rcases List.mem_append.mp hmem' with h12 | h12
        · exact absurd (hw1 _ h12) (by decide)
        · exact absurd h12 (by decide)
      · exact absurd (hw2 _ hmem') (by decide)
    · have hZW : Z = W := by
        have h1 := congrArg (List.take Z.length) hs2
        rw [List.take_left] at h1
        rw [heq, List.take_left] at h1
        exact h1
      have hws : ∀ a ∈ c, jsWs a = true :=
        ws_fence_ws_eq hw1 hw2 (by rw [← hW, ← hZW, hZ])
      cases hg : c.getLast? with
      | none => exact hc (List.getLast?_eq_none_iff.mp hg)
      | some a =>
        have hfalse := hlast a hg
        rw [hws a (List.mem_of_mem_getLast? hg)] at hfalse
        exact absurd hfalse (by simp)
    · by_cases hje : W.length + E.length ≤ Z.length
      · have hdropW : Z.drop W.length ++ (E ++ R) = E ++ r := by
          have h1 := congrArg (List.drop W.length) hs2
          rw [List.drop_append_of_le_length (by omega), List.drop_left] at h1
          exact h1
        have hlen : E.length ≤ (Z.drop W.length).length := by
          rw [List.length_drop]; omega
        have htake := congrArg (List.take E.length) hdropW
        rw [List.take_append_of_le_length hlen, List.take_left] at htake
        have hpre : E.isPrefixOf (Z.drop W.length) = true := by
          rw [List.isPrefixOf_iff_prefix]
          have := List.take_prefix E.length (Z.drop W.length)
          rw [htake] at this
          exact this
        have hocc : occursInB E Z = true := occursInB_iff.mpr ⟨W.length, hpre⟩
        rw [hocc] at hnoend
        exact absurd hnoend (by simp)
      · push_neg at hje
        rw [hs2, List.getElem?_append_right (by omega : W.length ≤ Z.length),
          List.getElem?_append_left (by omega : Z.length - W.length < E.length)] at hlhsZ
        have hdropE : (E.drop 1)[Z.length - W.length - 1]? = some '<' := by
          rw [List.getElem?_drop]
          rw [show 1 + (Z.length - W.length - 1) = Z.length - W.length by omega]
          exact hlhsZ
        have hmem : '<' ∈ E.drop 1 := List.getElem?_mem hdropE
        have hEd : E.drop 1 = "!-- FILE_END: ".toList ++ p ++ " -->".toList := by
          rw [hE, endTagOf_cons, List.drop_succ_cons, List.drop_zero]
        rw [hEd] at hmem
        rcases List.mem_append.mp hmem with hmem' | hmem'
        · rcases List.mem_append.mp hmem' with h12 | h12
          · exact absurd h12 (by decide)
          · exact hplt h12
        · exact absurd hmem' (by decide)

theorem dropWhile_append_of_all {q : Char → Bool} {w : Str} {b : Char} {bs : Str}
    (hw : ∀ a ∈ w, q a = true) (hb : q b = false) :
    (w ++ b :: bs).dropWhile q = b :: bs := by
  induction w with
  | nil => rw [List.nil_append, List.dropWhile_cons, if_neg (by simp [hb])]
  | cons x xs ih =>
    rw [List.cons_append, List.dropWhile_cons, if_pos (by simp [hw x (List.mem_cons_self _ _)])]
    exact ih (fun a ha => hw a (List.mem_cons_of_mem x ha))

theorem takeContent_cons (p acc : Str) (ch : Char) (s' : Str) :
    takeContent p acc (ch :: s') =
      match matchClose p (ch :: s') with
      | some rest => some (acc.reverse, rest)
      | none => takeContent p (ch :: acc) s' := by
  rw [takeContent]

theorem fenceLineRest_append_of_all {lang Z : Str} (hlang : langOkB lang = true) :
    fenceLineRest (lang ++ '\n' :: Z) = some Z := by
  unfold fenceLineRest
  rw [@dropWhile_append_of_all (fun c => !(c == '\n' || c == '\x0d')) lang '\n' Z
    (fun a ha => by have := List.all_eq_true.mp hlang a ha; simpa using this) (by decide)]
  split
  · next heq => simp at heq
  · next r heq =>
    obtain rfl : Z = r := by injection heq
    rfl
  · next hne1 hne2 => exact absurd rfl (hne2 Z)

theorem fenceLineRest_lf (Z : Str) : fenceLineRest ('\n' :: Z) = some Z := by
  unfold fenceLineRest
  rw [List.dropWhile_cons, if_neg (by decide)]
  split
  · next heq => simp at heq
  · next r heq =>
    obtain rfl : Z = r := by
      injection heq
    rfl
  · next hne1 hne2 => exact absurd rfl (hne2 Z)

/-- The lazy content capture stops exactly at the real separator when
the content has no trailing whitespace and the end tag does not occur
inside the content region. -/
theorem takeContent_mk {p : Str} (hplt : '<' ∉ p) :
    ∀ (c acc R : Str),
      (∀ a, c.getLast? = some a → jsWs a = false) →
      occursInB (endTagOf p) (c ++ sepStr) = false →
      takeContent p acc (c ++ sepStr ++ (endTagOf p ++ R)) = some (acc.reverse ++ c, R) := by
  intro c
  induction c with
  | nil =>
    intro acc R _ _
    have hmc : matchClose p ([] ++ sepStr ++ (endTagOf p ++ R)) = some R := by
      apply matchClose_some_iff.mpr
      refine ⟨['\n'], ['\n'], by decide, by decide, ?_⟩
      rw [sepStr_eq, fenceTok_eq]
      simp
    simp only [List.nil_append] at hmc ⊢
    rw [sepStr_eq] at hmc ⊢
    simp only [List.cons_append, List.nil_append] at hmc ⊢
    rw [takeContent_cons, hmc]
    simp
  | cons ch c' ih =>
    intro acc R hlast hnoend
    have hmc : matchClose p ((ch :: c') ++ sepStr ++ (endTagOf p ++ R)) = none :=
      matchClose_none_of (List.cons_ne_nil ch c') hlast hplt hnoend
    have hlast' : ∀ a, c'.getLast? = some a → jsWs a = false := by
      intro a ha
      apply hlast a
      have hne : c' ≠ [] := by
        intro hnil
        rw [hnil] at ha
        exact absurd ha (by simp)
      calc (ch :: c').getLast? = ([ch] ++ c').getLast? := by simp
        _ = c'.getLast? := List.getLast?_append_of_ne_nil [ch] hne
        _ = some a := ha
    have hnoend' : occursInB (endTagOf p) (c' ++ sepStr) = false := by
      apply @occursInB_cons _ ch _
      rw [show ch :: (c' ++ sepStr) = (ch :: c') ++ sepStr from by simp]
      exact hnoend
    have hrec := ih (ch :: acc) R hlast' hnoend'
    rw [show (ch :: acc).reverse ++ c' = acc.reverse ++ ch :: c' from by simp] at hrec
    rw [show (ch :: c') ++ sepStr ++ (endTagOf p ++ R)
        = ch :: (c' ++ sepStr ++ (endTagOf p ++ R)) from by simp] at hmc ⊢
    rw [takeContent_cons, hmc]
    exact hrec

/-- If the end tag never occurs in the remaining input, the lazy content
capture fails. -/
theorem takeContent_none {p : Str} :
    ∀ s : Str, occursInB (endTagOf p) s = false → ∀ acc, takeContent p acc s = none := by
  intro s
  induction s with
  | nil => intro _ acc; rfl
  | cons ch s' ih =>
    intro h acc
    have hmc : matchClose p (ch :: s') = none := by
      cases hm : matchClose p (ch :: s') with
      | none => rfl
      | some r =>
        exfalso
        obtain ⟨w1, w2, hw1, hw2, hs⟩ := matchClose_some_iff.mp hm
        have hpre : (endTagOf p).isPrefixOf
            ((ch :: s').drop (w1 ++ fenceTok ++ w2).length) = true := by
          rw [hs, List.append_assoc (w1 ++ fenceTok ++ w2) (endTagOf p) r, List.drop_left,
            List.isPrefixOf_iff_prefix]
          exact List.prefix_append _ _
        have hocc : occursInB (endTagOf p) (ch :: s') = true :=
          occursInB_iff.mpr ⟨_, hpre⟩
        rw [hocc] at h
        exact absurd h (by simp)
    rw [takeContent_cons, hmc]
    show takeContent p (ch :: acc) s' = none
    exact ih (occursInB_cons h) (ch :: acc)

/-- A well-formed fenced region after the start marker yields exactly
the written content and the text after the end marker. -/
theorem matchFenced_mk {p lang c R : Str} (hplt : '<' ∉ p) (hlang : langOkB lang = true)
    (hlast : ∀ a, c.getLast? = some a → jsWs a = false)
    (hnoend : occursInB (endTagOf p) (c ++ sepStr) = false) :
    matchFenced p ('\n' :: (fenceTok ++ (lang ++ '\n' :: (c ++ sepStr ++ (endTagOf p ++ R)))))
      = some (p, c, R) := by
  unfold matchFenced
  have hskip : skipWs ('\n' :: (fenceTok ++ (lang ++ '\n' :: (c ++ sepStr ++ (endTagOf p ++ R)))))
      = fenceTok ++ (lang ++ '\n' :: (c ++ sepStr ++ (endTagOf p ++ R))) := by
    rw [skipWs_cons_ws (by decide), fenceTok_eq, List.cons_append, skipWs_cons_not (by decide)]
  rw [hskip, litTok_append]
  simp only [Option.some_bind]
  rw [fenceLineRest_append_of_all hlang]
  simp only [Option.some_bind]
  rw [takeContent_mk hplt c [] R hlast hnoend]
  simp

/-- If the end tag never occurs after the start marker, the fenced-region
match fails. -/
theorem matchFenced_none {p s : Str} (h : occursInB (endTagOf p) s = false) :
    matchFenced p s = none := by
  unfold matchFenced
  cases h1 : litTok fenceTok (skipWs s) with
  | none => rfl
  | some s1 =>
    simp only [Option.some_bind]
    have hs1 : s1 <:+ s := (litTok_suffix h1).trans (skipWs_suffix s)
    cases h2 : fenceLineRest s1 with
    | none => rfl
    | some s2 =>
      simp only [Option.some_bind]
      have hs2 : s2 <:+ s := (fenceLineRest_suffix h2).trans hs1
      rw [takeContent_none s2 (occursInB_suffix hs2 h) []]
      rfl

theorem takePath_cons (acc : Str) (ch : Char) (s' : Str) :
    takePath acc (ch :: s') =
      if lineTermChar ch then none
      else
        match
          (if termTag.isPrefixOf (ch :: s') then
            matchFenced acc.reverse ((ch :: s').drop termTag.length)
          else none) with
        | some r => some r
        | none => takePath (ch :: acc) s' := by
  rw [takePath]

theorem termTag_not_prefix_of_head {b : Char} (X : Str) (hb : (' ' == b) = false) :
    termTag.isPrefixOf (b :: X) = false := by
  rw [show (termTag : Str) = ' ' :: ['-', '-', '>'] from by decide]
  simp [List.isPrefixOf, hb]

/-- The lazy path capture: with no early ` -->` occurrence inside the
payload, the walk consumes exactly the payload, and the whole match
reduces to the fenced-region match after the start marker. -/
theorem takePath_walk {u : Str} :
    ∀ p acc : Str,
      (∀ a ∈ p, lineTermChar a = false) →
      (∀ k, k < p.length → termTag.isPrefixOf (p.drop k ++ termTag) = false) →
      takePath acc (p ++ (termTag ++ '\n' :: u)) = matchFenced (acc.reverse ++ p) ('\n' :: u) := by
  intro p
  induction p with
  | nil =>
    intro acc _ _
    simp only [List.nil_append]
    rw [show termTag ++ '\n' :: u = ' ' :: '-' :: '-' :: '>' :: '\n' :: u from by
      rw [show (termTag : Str) = [' ', '-', '-', '>'] from by decide]
      rfl]
    rw [takePath_cons, if_neg (show ¬ (lineTermChar ' ' = true) from by decide)]
    rw [show ' ' :: '-' :: '-' :: '>' :: '\n' :: u = termTag ++ '\n' :: u from by
      rw [show (termTag : Str) = [' ', '-', '-', '>'] from by decide]
      rfl]
    rw [if_pos (show termTag.isPrefixOf (termTag ++ '\n' :: u) = true from by
      rw [List.isPrefixOf_iff_prefix]
      exact List.prefix_append _ _)]
    rw [List.drop_left, List.append_nil]
    cases hmf : matchFenced acc.reverse ('\n' :: u) with
    | some r => rfl
    | none =>
      show takePath (' ' :: acc) ('-' :: '-' :: '>' :: '\n' :: u) = none
      rw [takePath_cons, if_neg (show ¬ (lineTermChar '-' = true) from by decide),
        if_neg (show ¬ (termTag.isPrefixOf ('-' :: '-' :: '>' :: '\n' :: u) = true) from by
          rw [termTag_not_prefix_of_head _ (by decide)]
          simp)]
      show takePath ('-' :: ' ' :: acc) ('-' :: '>' :: '\n' :: u) = none
      rw [takePath_cons, if_neg (show ¬ (lineTermChar '-' = true) from by decide),
        if_neg (show ¬ (termTag.isPrefixOf ('-' :: '>' :: '\n' :: u) = true) from by
          rw [termTag_not_prefix_of_head _ (by decide)]
          simp)]
      show takePath ('-' :: '-' :: ' ' :: acc) ('>' :: '\n' :: u) = none
      rw [takePath_cons, if_neg (show ¬ (lineTermChar '>' = true) from by decide),
        if_neg (show ¬ (termTag.isPrefixOf ('>' :: '\n' :: u) = true) from by
          rw [termTag_not_prefix_of_head _ (by decide)]
          simp)]
      show takePath ('>' :: '-' :: '-' :: ' ' :: acc) ('\n' :: u) = none
      rw [takePath_cons, if_pos (show lineTermChar '\n' = true from by decide)]
  | cons a p' ih =>
    intro acc hterm hpref
    simp only [List.cons_append]
    rw [takePath_cons, if_neg (show ¬ (lineTermChar a = true) from by
      rw [hterm a (List.mem_cons_self a p')]
      simp)]
    have hfalse : termTag.isPrefixOf (a :: (p' ++ (termTag ++ '\n' :: u))) = false := by
      have h0 := hpref 0 (by simp)
      rw [List.drop_zero] at h0
      rw [show a :: (p' ++ (termTag ++ '\n' :: u)) = ((a :: p') ++ termTag) ++ '\n' :: u from by
        simp]
      rw [isPrefixOf_append_left (by simp; omega)]
      exact h0
    rw [if_neg (show ¬ (termTag.isPrefixOf (a :: (p' ++ (termTag ++ '\n' :: u))) = true) from by
      rw [hfalse]
      simp)]
    show takePath (a :: acc) (p' ++ (termTag ++ '\n' :: u)) = matchFenced (acc.reverse ++ a :: p') ('\n' :: u)
    rw [ih (a :: acc) (fun x hx => hterm x (List.mem_cons_of_mem a hx)) (fun k hk => by
      have hstep := hpref (k + 1) (by simpa using Nat.succ_lt_succ hk)
      rw [List.drop_succ_cons] at hstep
      exact hstep)]
    rw [show (a :: acc).reverse ++ p' = acc.reverse ++ a :: p' from by simp]

theorem mkBlock_decomp (p lang c R : Str) :
    mkBlock p lang c ++ R
      = startTag ++ (p ++ (termTag ++ '\n' :: (fenceTok ++ (lang ++ '\n' :: (c ++ sepStr ++ (endTagOf p ++ R)))))) := by
  simp [mkBlock, mkEndBlock]

/-- A well-formed block anchored at the current position matches, and the
captured pieces are the payload, the content, and the trailing text. -/
theorem matchBlockAt_block {p lang c R : Str} (hplt : '<' ∉ p) (hlang : langOkB lang = true)
    (hlast : ∀ a, c.getLast? = some a → jsWs a = false)
    (hnoend : occursInB (endTagOf p) (c ++ sepStr) = false)
    (hterm : ∀ a ∈ p, lineTermChar a = false)
    (hpref : ∀ k, k < p.length → termTag.isPrefixOf (p.drop k ++ termTag) = false) :
    matchBlockAt (mkBlock p lang c ++ R) = some (p, c, R) := by
  unfold matchBlockAt
  rw [mkBlock_decomp, litTok_append]
  simp only [Option.some_bind]
  rw [takePath_walk _ [] hterm hpref]
  rw [show (([] : Str).reverse ++ p) = p from by simp]
  exact matchFenced_mk hplt hlang hlast hnoend

theorem scanBlocks_succ (fuel : Nat) (s : Str) :
    scanBlocks (fuel + 1) s =
      match matchBlockAt s with
      | some (p, content, rest) =>
        { filePath := trimChars p, newContent := cleanupContent content } :: scanBlocks fuel rest
      | none =>
        match s with
        | [] => []
        | _ :: s' => scanBlocks fuel s' := rfl

theorem scanBlocks_nil : ∀ f, scanBlocks f [] = [] := by
  intro f
  cases f with
  | zero => rfl
  | succ n =>
    rw [scanBlocks_succ]
    rw [show matchBlockAt [] = none from rfl]

theorem scanBlocks_nostart : ∀ (f : Nat) (s : Str),
    occursInB startTag s = false → scanBlocks f s = [] := by
  intro f
  induction f with
  | zero => intro s _; rfl
  | succ n ih =>
    intro s h
    have hmb : matchBlockAt s = none := by
      unfold matchBlockAt
      have hlit : litTok startTag s = none := by
        apply litTok_none
        cases hp : startTag.isPrefixOf s with
        | false => rfl
        | true =>
          exfalso
          have hocc : occursInB startTag s = true :=
            occursInB_iff.mpr ⟨0, by rw [List.drop_zero]; exact hp⟩
          rw [hocc] at h
          exact absurd h (by simp)
      rw [hlit]
      rfl
    rw [scanBlocks_succ, hmb]
    cases s with
    | nil => rfl
    | cons ch s' =>
      show scanBlocks n s' = []
      exact ih s' (occursInB_cons h)

/-- C2: for a well-formed block whose path payload has no early ` -->`
occurrence, whose fence-line tag has no line break, whose content has no
trailing whitespace, and whose matching end tag does not occur inside
the content region — in particular the content may freely contain
fence tokens — parsing extracts the whole content verbatim (up to the
cleanup pass), i.e. extraction runs to the block's terminator rather
than truncating at an inner fence. -/
theorem parseLLMResponse_block {p lang c : Str}
    (hpath : pathOkB p = true) (hlang : langOkB lang = true)
    (htrail : noTrailWs c = true)
    (hnoend : occursInB (endTagOf p) (c ++ sepStr) = false) :
    parseLLMResponse (mkBlock p lang c) = [⟨trimChars p, cleanupContent c⟩] := by
  rw [pathOkB, Bool.and_eq_true] at hpath
  have hall : ∀ a ∈ p, (!(lineTermChar a) && !(a == '<')) = true :=
    fun a ha => List.all_eq_true.mp hpath.1 a ha
  have hterm : ∀ a ∈ p, lineTermChar a = false := by
    intro a ha
    have h := hall a ha
    rw [Bool.and_eq_true] at h
    simpa using h.1
  have hplt : '<' ∉ p := by
    intro hmem
    have h := hall _ hmem
    rw [Bool.and_eq_true] at h
    simp at h
  have hpref : ∀ k, k < p.length → termTag.isPrefixOf (p.drop k ++ termTag) = false := by
    intro k hk
    have h := List.all_eq_true.mp hpath.2 k (List.mem_range.mpr hk)
    simpa using h
  have hlast := noTrailWs_spec htrail
  have hmb := @matchBlockAt_block p lang c [] hplt hlang hlast hnoend hterm hpref
  rw [List.append_nil] at hmb
  unfold parseLLMResponse
  rw [scanBlocks_succ, hmb]
  show ({ filePath := trimChars p, newContent := cleanupContent c } : FileChange)
    :: scanBlocks (mkBlock p lang c).length [] = _
  rw [scanBlocks_nil]

theorem parseLLMResponse_block_witness :
    (pathOkB "a".toList = true ∧ langOkB "ts".toList = true ∧
      noTrailWs "# Doc\n```js\ncode()\n```\nend".toList = true ∧
      occursInB (endTagOf "a".toList) ("# Doc\n```js\ncode()\n```\nend".toList ++ sepStr) = false) ∧
    parseLLMResponse (mkBlock "a".toList "ts".toList "# Doc\n```js\ncode()\n```\nend".toList)
      = [⟨trimChars "a".toList, cleanupContent "# Doc\n```js\ncode()\n```\nend".toList⟩] :=
  ⟨⟨by decide, by decide, by decide, by decide⟩,
    parseLLMResponse_block (by decide) (by decide) (by decide) (by decide)⟩

/-- C9 (amended): a block whose end marker's payload does not match the
start marker's — so that the matching end tag never occurs in the text —
produces no parsed block at all, provided no further start marker
follows.  (Without that proviso the claim's "without affecting other
blocks" part fails: a later block with a matching payload is merged into
one block, see the counterexample.) -/
theorem parseLLMResponse_mismatched {p lang c q : Str}
    (hpath : pathOkB p = true)
    (hnoend : occursInB (endTagOf p) (mkEndBlock p lang c q) = false)
    (hnostart : occursInB startTag (List.drop 1 (mkEndBlock p lang c q)) = false) :
    parseLLMResponse (mkEndBlock p lang c q) = [] := by
  rw [pathOkB, Bool.and_eq_true] at hpath
  have hterm : ∀ a ∈ p, lineTermChar a = false := by
    intro a ha
    have h := List.all_eq_true.mp hpath.1 a ha
    rw [Bool.and_eq_true] at h
    simpa using h.1
  have hpref : ∀ k, k < p.length → termTag.isPrefixOf (p.drop k ++ termTag) = false := by
    intro k hk
    have h := List.all_eq_true.mp hpath.2 k (List.mem_range.mpr hk)
    simpa using h
  have hdecomp : mkEndBlock p lang c q
      = startTag ++ (p ++ (termTag ++ '\n' :: (fenceTok ++ (lang ++ '\n' :: (c ++ sepStr ++ endTagOf q))))) := by
    simp [mkEndBlock]
  have hmb : matchBlockAt (mkEndBlock p lang c q) = none := by
    unfold matchBlockAt
    rw [hdecomp, litTok_append]
    simp only [Option.some_bind]
    rw [takePath_walk _ [] hterm hpref]
    rw [show (([] : Str).reverse ++ p) = p from by simp]
    apply matchFenced_none
    apply occursInB_suffix _ hnoend
    rw [hdecomp]
    exact ⟨startTag ++ p ++ termTag, by simp⟩
  obtain ⟨t', ht'⟩ : ∃ t', mkEndBlock p lang c q = '<' :: t' := by
    rw [hdecomp, show (startTag : Str) = '<' :: "!-- FILE_START: ".toList from by decide]
    exact ⟨"!-- FILE_START: ".toList
      ++ (p ++ (termTag ++ '\n' :: (fenceTok ++ (lang ++ '\n' :: (c ++ sepStr ++ endTagOf q))))),
      by simp⟩
  have hnostart' : occursInB startTag t' = false := by
    rw [ht'] at hnostart
    simpa using hnostart
  unfold parseLLMResponse
  rw [scanBlocks_succ, hmb, ht']
  show scanBlocks ('<' :: t').length t' = []
  exact scanBlocks_nostart _ t' hnostart'

theorem parseLLMResponse_mismatched_witness :
    (pathOkB "a".toList = true ∧
      occursInB (endTagOf "a".toList) (mkEndBlock "a".toList [] "X".toList "b".toList) = false ∧
      occursInB startTag (List.drop 1 (mkEndBlock "a".toList [] "X".toList "b".toList)) = false) ∧
    parseLLMResponse (mkEndBlock "a".toList [] "X".toList "b".toList) = [] :=
  ⟨⟨by decide, by decide, by decide⟩,
    parseLLMResponse_mismatched (by decide) (by decide) (by decide)⟩

/-- C9 counterexample: a block terminated by a mismatched end marker
(`b` vs `a`) followed by a well-formed block with payload `a` does NOT
leave the second block unaffected: the two are merged into a single
parsed block whose content swallows the mismatched terminator and the
second start marker, instead of yielding the second block alone. -/
theorem mismatched_end_marker_cex :
    parseLLMResponse ("<!-- FILE_START: a -->\n```\nX\n```\n<!-- FILE_END: b -->\n<!-- FILE_START: a -->\n```\nY\n```\n<!-- FILE_END: a -->").toList
      = [⟨"a".toList, ("X\n```\n<!-- FILE_END: b -->\n<!-- FILE_START: a -->\n```\nY").toList⟩]
    ∧ parseLLMResponse ("<!-- FILE_START: a -->\n```\nX\n```\n<!-- FILE_END: b -->\n<!-- FILE_START: a -->\n```\nY\n```\n<!-- FILE_END: a -->").toList
      ≠ [⟨"a".toList, "Y".toList⟩] := by
  decide
